import Mathlib

/-!
Verification of the minimax chess engine (`MinimaxAgent`) of the
chess-trainer repository.

The engine consists of an evaluator (`evaluateBoard`), a searcher
(`minimax`, alpha-beta pruning over a mutable game threaded here in
state-passing style) and a top-level entry (`findBestMove`).  The rules
oracle (the external `chess.js` library) is modelled abstractly as an
`Oracle` structure following section 6 of the design document; a game
object is a current position together with the history stack that makes
`undo` possible.
-/

namespace MinimaxAgent

/-- Scores are JavaScript numbers; the engine only ever uses integers
(centipawns) together with the two infinities used as sentinels for the
running best score, so a score is an integer extended by `negInf` and
`posInf`. -/
inductive Score where
  | negInf : Score
  | fin : ℤ → Score
  | posInf : Score
deriving DecidableEq, Repr

/-- Boolean comparison on scores, matching the JavaScript `<=` ordering on
numbers extended with the infinities. -/
def Score.ble : Score → Score → Bool
  | .negInf, _ => true
  | .fin _, .negInf => false
  | .fin a, .fin b => a ≤ b
  | .fin _, .posInf => true
  | .posInf, .posInf => true
  | .posInf, _ => false

instance instLEScore : LE Score := ⟨fun a b => Score.ble a b = true⟩

lemma Score.le_def (a b : Score) : a ≤ b ↔ Score.ble a b = true := Iff.rfl

instance : DecidableEq Score := inferInstance

instance instDecidableLEScore (a b : Score) : Decidable (a ≤ b) :=
  inferInstanceAs (Decidable (Score.ble a b = true))

private lemma score_le_refl (a : Score) : a ≤ a := by
  cases a <;> simp [Score.le_def, Score.ble]

private lemma score_le_trans (a b c : Score) : a ≤ b → b ≤ c → a ≤ c := by
  cases a <;> cases b <;> cases c <;>
    simp [Score.le_def, Score.ble, decide_eq_true_eq] <;> omega

private lemma score_le_antisymm (a b : Score) : a ≤ b → b ≤ a → a = b := by
  cases a <;> cases b <;>
    simp [Score.le_def, Score.ble, decide_eq_true_eq] <;> omega

private lemma score_le_total (a b : Score) : a ≤ b ∨ b ≤ a := by
  cases a <;> cases b <;>
    simp [Score.le_def, Score.ble, decide_eq_true_eq] <;> omega

instance : LinearOrder Score where
  le := (· ≤ ·)
  le_refl := score_le_refl
  le_trans := score_le_trans
  le_antisymm := score_le_antisymm
  le_total := score_le_total
  decidableLE := fun a b => inferInstanceAs (Decidable (Score.ble a b = true))
  decidableEq := inferInstance

@[simp] lemma Score.negInf_le (s : Score) : Score.negInf ≤ s := by
  cases s <;> simp [Score.le_def, Score.ble]

@[simp] lemma Score.le_posInf (s : Score) : s ≤ Score.posInf := by
  cases s <;> simp [Score.le_def, Score.ble]

@[simp] lemma Score.fin_le_fin {a b : ℤ} : Score.fin a ≤ Score.fin b ↔ a ≤ b := by
  simp [Score.le_def, Score.ble, decide_eq_true_eq]

@[simp] lemma Score.not_posInf_le_fin (z : ℤ) : ¬ Score.posInf ≤ Score.fin z := by
  simp [Score.le_def, Score.ble]

@[simp] lemma Score.not_fin_le_negInf (z : ℤ) : ¬ Score.fin z ≤ Score.negInf := by
  simp [Score.le_def, Score.ble]

@[simp] lemma Score.not_posInf_le_negInf : ¬ Score.posInf ≤ Score.negInf := by
  simp [Score.le_def, Score.ble]

@[simp] lemma Score.negInf_lt_fin (z : ℤ) : Score.negInf < Score.fin z :=
  lt_iff_le_not_le.mpr ⟨Score.negInf_le _, Score.not_fin_le_negInf z⟩

@[simp] lemma Score.fin_lt_posInf (z : ℤ) : Score.fin z < Score.posInf :=
  lt_iff_le_not_le.mpr ⟨Score.le_posInf _, Score.not_posInf_le_fin z⟩

@[simp] lemma Score.negInf_lt_posInf : Score.negInf < Score.posInf :=
  lt_iff_le_not_le.mpr ⟨Score.negInf_le _, Score.not_posInf_le_negInf⟩

@[simp] lemma Score.fin_lt_fin {a b : ℤ} : Score.fin a < Score.fin b ↔ a < b := by
  rw [lt_iff_le_not_le]
  simp only [Score.fin_le_fin]
  omega

/-- A score is finite when it is neither infinity. -/
def Score.IsFin (s : Score) : Prop := ∃ z : ℤ, s = Score.fin z

lemma Score.IsFin.negInf_lt {s : Score} (h : s.IsFin) : Score.negInf < s := by
  obtain ⟨z, rfl⟩ := h; simp

lemma Score.IsFin.lt_posInf {s : Score} (h : s.IsFin) : s < Score.posInf := by
  obtain ⟨z, rfl⟩ := h; simp

lemma Score.isFin_max {a b : Score} (ha : a.IsFin) (hb : b.IsFin) : (max a b).IsFin := by
  rcases max_choice a b with h | h <;> rw [h] <;> assumption

lemma Score.isFin_min {a b : Score} (ha : a.IsFin) (hb : b.IsFin) : (min a b).IsFin := by
  rcases min_choice a b with h | h <;> rw [h] <;> assumption

/-- The update `if a < b then b else a` performed by the search loop on its
running best score is exactly `max`. -/
lemma strict_if_eq_max (a b : Score) : (if a < b then b else a) = max a b := by
  rcases lt_or_ge a b with h | h
  · rw [if_pos h, max_eq_right h.le]
  · rw [if_neg (not_lt_of_ge h), max_eq_left h]

/-- The update `if b < a then b else a` performed by the minimizing loop on
its running best score is exactly `min`. -/
lemma strict_if_eq_min (a b : Score) : (if b < a then b else a) = min a b := by
  rcases lt_or_ge b a with h | h
  · rw [if_pos h, min_eq_right h.le]
  · rw [if_neg (not_lt_of_ge h), min_eq_left h]

/-! ## Data model: board snapshots, moves and the rules oracle -/

/-- Piece colors, `'w'` and `'b'` in the source. -/
inductive Color where
  | w : Color
  | b : Color
deriving DecidableEq, Repr

/-- The six chess piece types. -/
inductive PieceType where
  | p | n | b | r | q | k
deriving DecidableEq, Repr

/-- Piece symbol as produced by the rules library in board snapshots:
`chess.js`'s `board()` yields a `type : PieceSymbol` field that is always
the lowercase letter of the piece type, with the color carried in a
separate `color` field. -/
def PieceType.sym : PieceType → Char
  | .p => 'p'
  | .n => 'n'
  | .b => 'b'
  | .r => 'r'
  | .q => 'q'
  | .k => 'k'

/-- An occupied cell of a board snapshot: the `{ type, color }` object
returned by the rules library's `board()`. -/
structure SquareInfo where
  type : PieceType
  color : Color
deriving DecidableEq, Repr

/-- A board snapshot: 8 rows of 8 optional squares, row 0 being rank 8
(Black's back rank), exactly as `chess.js`'s `board()` lays it out. -/
abbrev Board := List (List (Option SquareInfo))

/-- A verbose move as handed to the engine by the rules oracle.  The engine
treats moves opaquely: it passes them back to `applyMove` and reads their
`san` notation, so only the notation needs to be modelled. -/
structure Mv where
  san : String
deriving DecidableEq, Repr

/-- Modelled from the spec: the external rules oracle of section 6 (the
`chess.js` library, which is not part of this repository).  It supplies the
legal-move list, move application, the terminal predicates, the side to
move, board snapshots and FEN serialization. -/
structure Oracle (Pos : Type) where
  board : Pos → Board
  turn : Pos → Color
  moves : Pos → List Mv
  applyMove : Pos → Mv → Pos
  isCheckmate : Pos → Bool
  isStalemate : Pos → Bool
  isDraw : Pos → Bool
  isThreefoldRepetition : Pos → Bool
  isInsufficientMaterial : Pos → Bool
  isGameOver : Pos → Bool
  fen : Pos → String
  fromFen : String → Pos

/-- Modelled from the spec: a `Chess` game object is its current position
together with the history stack that `undoLastMove` pops (section 6:
`applyMove` mutates the position in place, `undoLastMove` reverts the most
recent applied move, in matching nested order). -/
structure Game (Pos : Type) where
  pos : Pos
  hist : List Pos
deriving DecidableEq, Repr

/-- `game.move(m)`: apply a move, pushing the previous position on the
history stack. -/
def Game.move {Pos : Type} (O : Oracle Pos) (g : Game Pos) (m : Mv) : Game Pos :=
  ⟨O.applyMove g.pos m, g.pos :: g.hist⟩

/-- `game.undo()`: revert the most recently applied move by popping the
history stack (a no-op on an empty history, where `chess.js` returns
`null`). -/
def Game.undo {Pos : Type} : Game Pos → Game Pos
  | ⟨p, []⟩ => ⟨p, []⟩
  | ⟨_, q :: h⟩ => ⟨q, h⟩

@[simp] lemma Game.undo_move {Pos : Type} (O : Oracle Pos) (g : Game Pos) (m : Mv) :
    Game.undo (Game.move O g m) = g := by
  cases g
  rfl

@[simp] lemma Game.move_pos {Pos : Type} (O : Oracle Pos) (g : Game Pos) (m : Mv) :
    (Game.move O g m).pos = O.applyMove g.pos m := rfl

/-! ## The evaluator -/

/-- Piece values for evaluation (in centipawns): the `PIECE_VALUES` object,
keyed by the piece letter, lowercase entries negative (intended for Black),
uppercase entries positive (intended for White).  A key absent from the
object is modelled as 0; board snapshots only ever produce the six
lowercase symbols, so this default is never hit by `evaluateBoard`. -/
def PIECE_VALUES : Char → ℤ
  | 'p' => -100
  | 'n' => -320
  | 'b' => -330
  | 'r' => -500
  | 'q' => -900
  | 'k' => -20000
  | 'P' => 100
  | 'N' => 320
  | 'B' => 330
  | 'R' => 500
  | 'Q' => 900
  | 'K' => 20000
  | _ => 0

/-- Pawn placement bonuses (`POSITION_BONUSES.P`). -/
def P_TABLE : List (List ℤ) :=
  [[0, 0, 0, 0, 0, 0, 0, 0],
   [50, 50, 50, 50, 50, 50, 50, 50],
   [10, 10, 20, 30, 30, 20, 10, 10],
   [5, 5, 10, 25, 25, 10, 5, 5],
   [0, 0, 0, 20, 20, 0, 0, 0],
   [5, -5, -10, 0, 0, -10, -5, 5],
   [5, 10, 10, -20, -20, 10, 10, 5],
   [0, 0, 0, 0, 0, 0, 0, 0]]

/-- Knight placement bonuses (`POSITION_BONUSES.N`). -/
def N_TABLE : List (List ℤ) :=
  [[-50, -40, -30, -30, -30, -30, -40, -50],
   [-40, -20, 0, 0, 0, 0, -20, -40],
   [-30, 0, 10, 15, 15, 10, 0, -30],
   [-30, 5, 15, 20, 20, 15, 5, -30],
   [-30, 0, 15, 20, 20, 15, 0, -30],
   [-30, 5, 10, 15, 15, 10, 5, -30],
   [-40, -20, 0, 5, 5, 0, -20, -40],
   [-50, -40, -30, -30, -30, -30, -40, -50]]

/-- Bishop placement bonuses (`POSITION_BONUSES.B`). -/
def B_TABLE : List (List ℤ) :=
  [[-20, -10, -10, -10, -10, -10, -10, -20],
   [-10, 0, 0, 0, 0, 0, 0, -10],
   [-10, 0, 10, 10, 10, 10, 0, -10],
   [-10, 5, 5, 10, 10, 5, 5, -10],
   [-10, 0, 5, 10, 10, 5, 0, -10],
   [-10, 10, 10, 10, 10, 10, 10, -10],
   [-10, 5, 0, 0, 0, 0, 5, -10],
   [-20, -10, -10, -10, -10, -10, -10, -20]]

/-- Rook placement bonuses (`POSITION_BONUSES.R`). -/
def R_TABLE : List (List ℤ) :=
  [[0, 0, 0, 0, 0, 0, 0, 0],
   [5, 10, 10, 10, 10, 10, 10, 5],
   [-5, 0, 0, 0, 0, 0, 0, -5],
   [-5, 0, 0, 0, 0, 0, 0, -5],
   [-5, 0, 0, 0, 0, 0, 0, -5],
   [-5, 0, 0, 0, 0, 0, 0, -5],
   [-5, 0, 0, 0, 0, 0, 0, -5],
   [0, 0, 0, 5, 5, 0, 0, 0]]

/-- Queen placement bonuses (`POSITION_BONUSES.Q`). -/
def Q_TABLE : List (List ℤ) :=
  [[-20, -10, -10, -5, -5, -10, -10, -20],
   [-10, 0, 0, 0, 0, 0, 0, -10],
   [-10, 0, 5, 5, 5, 5, 0, -10],
   [-5, 0, 5, 5, 5, 5, 0, -5],
   [0, 0, 5, 5, 5, 5, 0, -5],
   [-10, 5, 5, 5, 5, 5, 0, -10],
   [-10, 0, 5, 0, 0, 0, 0, -10],
   [-20, -10, -10, -5, -5, -10, -10, -20]]

/-- King placement bonuses (`POSITION_BONUSES.K`). -/
def K_TABLE : List (List ℤ) :=
  [[-30, -40, -40, -50, -50, -40, -40, -30],
   [-30, -40, -40, -50, -50, -40, -40, -30],
   [-30, -40, -40, -50, -50, -40, -40, -30],
   [-30, -40, -40, -50, -50, -40, -40, -30],
   [-20, -30, -30, -40, -40, -30, -30, -20],
   [-10, -20, -20, -20, -20, -20, -20, -10],
   [20, 20, 0, 0, 0, 0, 20, 20],
   [20, 30, 10, 0, 0, 10, 30, 20]]

/-- The `POSITION_BONUSES` object: keyed by the uppercase piece letters
only; any other key is absent. -/
def POSITION_BONUSES : Char → Option (List (List ℤ))
  | 'P' => some P_TABLE
  | 'N' => some N_TABLE
  | 'B' => some B_TABLE
  | 'R' => some R_TABLE
  | 'Q' => some Q_TABLE
  | 'K' => some K_TABLE
  | _ => none

/-- Indexing `table[r][c]` (always in bounds in the engine's uses). -/
def tableGet (t : List (List ℤ)) (r c : Nat) : ℤ := (t.getD r []).getD c 0

/-- `getPositionBonus(piece, row, col)` from the source: look the table up
under the uppercased letter; the `piece === piece.toUpperCase()` branch
reads `bonus[7 - row][col]`, the other branch reads `-bonus[row][col]`. -/
def getPositionBonus (piece : Char) (row col : Nat) : ℤ :=
  let pieceType := piece.toUpper
  match POSITION_BONUSES pieceType with
  | none => 0
  | some bonus =>
    if piece = pieceType then tableGet bonus (7 - row) col
    else - tableGet bonus row col

/-- The material contribution of one occupied square in `evaluateBoard`:
`PIECE_VALUES[square.type] * (square.color === 'w' ? 1 : -1)`. -/
def materialValue (sq : SquareInfo) : ℤ :=
  PIECE_VALUES sq.type.sym * (if sq.color = Color.w then 1 else -1)

/-- `evaluateBoard(game)`: terminal handling first (checkmate, then the
draw-like predicates), otherwise material value plus position bonus summed
over the 8×8 board snapshot, plus 5 centipawns per currently legal move,
signed by the side to move. -/
def evaluateBoard {Pos : Type} (O : Oracle Pos) (p : Pos) : ℤ :=
  if O.isCheckmate p then
    (if O.turn p = Color.w then -100000 else 100000)
  else if O.isDraw p || O.isStalemate p || O.isThreefoldRepetition p
      || O.isInsufficientMaterial p then
    0
  else
    let board := O.board p
    let score :=
      (List.range 8).foldl (fun s row =>
        (List.range 8).foldl (fun s col =>
          match (board.getD row []).getD col none with
          | none => s
          | some square => s + materialValue square + getPositionBonus square.type.sym row col)
          s)
        0
    score + (O.moves p).length * (if O.turn p = Color.w then 1 else -1) * 5

/-! ## The searcher -/

/-- The `{ score, move? }` record returned by `minimax` (the move is the
SAN notation of the chosen verbose move, absent at leaves). -/
structure SearchResult where
  score : Score
  move : Option String
deriving DecidableEq, Repr

/-- The maximizing branch of the `for (const move of moves)` loop of
`minimax`: make the move, recurse (`f` is the search one ply shallower),
undo the move, update the running best on a strictly better score, raise
`alpha`, and stop early (`break`) as soon as `beta <= alpha`.  The game
object is threaded explicitly; the loop returns it together with
`maxScore` and `bestMove`. -/
def maxLoop {Pos : Type} (O : Oracle Pos)
    (f : Game Pos → Score → Score → Bool → Game Pos × SearchResult) :
    List Mv → Game Pos → Score → Score → Score → Option Mv →
      Game Pos × Score × Option Mv
  | [], g, _, _, maxScore, bestMove => (g, maxScore, bestMove)
  | mv :: rest, g, alpha, beta, maxScore, bestMove =>
    let r := f (Game.move O g mv) alpha beta false
    let g' := Game.undo r.1
    let maxScore' := if maxScore < r.2.score then r.2.score else maxScore
    let bestMove' := if maxScore < r.2.score then some mv else bestMove
    let alpha' := max alpha maxScore'
    if beta ≤ alpha' then (g', maxScore', bestMove')
    else maxLoop O f rest g' alpha' beta maxScore' bestMove'

/-- The minimizing branch of the move loop of `minimax`: symmetric to
`maxLoop`, lowering `beta` and breaking as soon as `beta <= alpha`. -/
def minLoop {Pos : Type} (O : Oracle Pos)
    (f : Game Pos → Score → Score → Bool → Game Pos × SearchResult) :
    List Mv → Game Pos → Score → Score → Score → Option Mv →
      Game Pos × Score × Option Mv
  | [], g, _, _, minScore, bestMove => (g, minScore, bestMove)
  | mv :: rest, g, alpha, beta, minScore, bestMove =>
    let r := f (Game.move O g mv) alpha beta true
    let g' := Game.undo r.1
    let minScore' := if r.2.score < minScore then r.2.score else minScore
    let bestMove' := if r.2.score < minScore then some mv else bestMove
    let beta' := min beta minScore'
    if beta' ≤ alpha then (g', minScore', bestMove')
    else minLoop O f rest g' alpha beta' minScore' bestMove'

/-- `minimax(game, depth, alpha, beta, isMaximizingPlayer)`: at depth 0 or
on a finished game return the static evaluation and no move; otherwise run
the maximizing or minimizing move loop over `game.moves()` and return the
best score together with `bestMove?.san`.  The mutable game object is
threaded in state-passing style and returned alongside the result. -/
def minimax {Pos : Type} (O : Oracle Pos) :
    Nat → Game Pos → Score → Score → Bool → Game Pos × SearchResult
  | 0 => fun g _ _ _ => (g, ⟨Score.fin (evaluateBoard O g.pos), none⟩)
  | d + 1 => fun g alpha beta isMaximizingPlayer =>
    if O.isGameOver g.pos then (g, ⟨Score.fin (evaluateBoard O g.pos), none⟩)
    else
      let moves := O.moves g.pos
      if isMaximizingPlayer then
        let r := maxLoop O (minimax O d) moves g alpha beta Score.negInf none
        (r.1, ⟨r.2.1, r.2.2.map Mv.san⟩)
      else
        let r := minLoop O (minimax O d) moves g alpha beta Score.posInf none
        (r.1, ⟨r.2.1, r.2.2.map Mv.san⟩)

/-- `findBestMove(game, depth, computerColor)`: build a fresh game from the
caller's FEN, decide the root perspective by comparing the side to move
with the computer's color, search, and return the chosen move's notation
(`move || null`, so an absent — or empty — notation becomes `null`).  The
caller's game is threaded and returned so that the embedding records any
mutation of it; the source only ever reads `game.fen()`. -/
def findBestMove {Pos : Type} (O : Oracle Pos) (game : Game Pos)
    (depth : Nat := 3) (computerColor : Color := Color.b) :
    Game Pos × Option String :=
  let gameCopy : Game Pos := ⟨O.fromFen (O.fen game.pos), []⟩
  let isMaximizingPlayer := O.turn gameCopy.pos = computerColor
  let r := (minimax O depth gameCopy Score.negInf Score.posInf isMaximizingPlayer).2
  (game,
    match r.move with
    | none => none
    | some s => if s = "" then none else some s)

/-- Modelled from the spec: the reference algorithm of the "Pruning
equivalence" property of section 8 — exhaustive minimax without pruning
over the same move enumeration order, with the strict-improvement
tie-break of section 4.2 step 4 (the first strictly better move wins).
Maximizing branch of its move loop. -/
def noPruneMaxLoop {Pos : Type} (O : Oracle Pos)
    (f : Pos → Bool → Score × Option Mv) :
    List Mv → Pos → Score → Option Mv → Score × Option Mv
  | [], _, best, bm => (best, bm)
  | mv :: rest, p, best, bm =>
    let s := (f (O.applyMove p mv) false).1
    noPruneMaxLoop O f rest p (if best < s then s else best)
      (if best < s then some mv else bm)

/-- Modelled from the spec: minimizing branch of the exhaustive-minimax
move loop. -/
def noPruneMinLoop {Pos : Type} (O : Oracle Pos)
    (f : Pos → Bool → Score × Option Mv) :
    List Mv → Pos → Score → Option Mv → Score × Option Mv
  | [], _, best, bm => (best, bm)
  | mv :: rest, p, best, bm =>
    let s := (f (O.applyMove p mv) true).1
    noPruneMinLoop O f rest p (if s < best then s else best)
      (if s < best then some mv else bm)

/-- Modelled from the spec: exhaustive minimax without alpha-beta pruning,
same base case, same move enumeration order and same tie-break as the
pruned search; returns the value and the chosen verbose move. -/
def minimaxNoPrune {Pos : Type} (O : Oracle Pos) :
    Nat → Pos → Bool → Score × Option Mv
  | 0 => fun p _ => (Score.fin (evaluateBoard O p), none)
  | d + 1 => fun p isMax =>
    if O.isGameOver p then (Score.fin (evaluateBoard O p), none)
    else if isMax then
      noPruneMaxLoop O (minimaxNoPrune O d) (O.moves p) p Score.negInf none
    else
      noPruneMinLoop O (minimaxNoPrune O d) (O.moves p) p Score.posInf none

/-! ## A concrete rules oracle on a family of real chess positions

Concrete positions used to instantiate the theorems and to exhibit the
divergences between the code and its specification.  Boards, side to move,
terminal flags, legal-move lists (with their real SAN notations) and FENs
are those a real rules engine produces on these positions; move
application beyond the positions of interest falls back to the drawn
K-vs-K sink `kk`, which no theorem's search ever reaches. -/

inductive ScenPos where
  | kk      -- K vs K, a drawn (insufficient material) terminal position
  | mateW   -- White checkmated: 6k1/8/8/8/8/8/5PPP/4r1K1 w
  | mateB   -- Black checkmated: 4R1k1/5ppp/8/8/8/8/8/6K1 b
  | stale   -- Black stalemated: 7k/5K2/6Q1/8/8/8/8/8 b
  | c4root  -- 4k3/8/8/8/8/8/8/3QK3 b : Black to move, three king moves
  | c4ke7   -- after ...Ke7
  | c4kf7   -- after ...Kf7
  | c4kf8   -- after ...Kf8
  | qk      -- 4k3/8/8/8/8/8/8/Q3K3 w
  | qkm     -- q3k3/8/8/8/8/8/8/4K3 b : color-flipped rank-mirror of qk
  | pawnP   -- 4k3/8/8/8/8/8/P7/4K3 w : lone white pawn
deriving DecidableEq, Repr

/-- White piece on a board snapshot. -/
def wsq (t : PieceType) : Option SquareInfo := some ⟨t, Color.w⟩

/-- Black piece on a board snapshot. -/
def bsq (t : PieceType) : Option SquareInfo := some ⟨t, Color.b⟩

/-- An empty board row. -/
def row0 : List (Option SquareInfo) := List.replicate 8 none

/-- Turn a list of SAN strings into a verbose move list. -/
def mvs (l : List String) : List Mv := l.map Mv.mk

def ScenPos.boardOf : ScenPos → Board
  | .kk =>
      [[none, none, none, none, bsq .k, none, none, none],
       row0, row0, row0, row0, row0, row0,
       [none, none, none, none, wsq .k, none, none, none]]
  | .mateW =>
      [[none, none, none, none, none, none, bsq .k, none],
       row0, row0, row0, row0, row0,
       [none, none, none, none, none, wsq .p, wsq .p, wsq .p],
       [none, none, none, none, bsq .r, none, wsq .k, none]]
  | .mateB =>
      [[none, none, none, none, wsq .r, none, bsq .k, none],
       [none, none, none, none, none, bsq .p, bsq .p, bsq .p],
       row0, row0, row0, row0, row0,
       [none, none, none, none, none, none, wsq .k, none]]
  | .stale =>
      [[none, none, none, none, none, none, none, bsq .k],
       [none, none, none, none, none, wsq .k, none, none],
       [none, none, none, none, none, none, wsq .q, none],
       row0, row0, row0, row0, row0]
  | .c4root =>
      [[none, none, none, none, bsq .k, none, none, none],
       row0, row0, row0, row0, row0, row0,
       [none, none, none, wsq .q, wsq .k, none, none, none]]
  | .c4ke7 =>
      [row0,
       [none, none, none, none, bsq .k, none, none, none],
       row0, row0, row0, row0, row0,
       [none, none, none, wsq .q, wsq .k, none, none, none]]
  | .c4kf7 =>
      [row0,
       [none, none, none, none, none, bsq .k, none, none],
       row0, row0, row0, row0, row0,
       [none, none, none, wsq .q, wsq .k, none, none, none]]
  | .c4kf8 =>
      [[none, none, none, none, none, bsq .k, none, none],
       row0, row0, row0, row0, row0, row0,
       [none, none, none, wsq .q, wsq .k, none, none, none]]
  | .qk =>
      [[none, none, none, none, bsq .k, none, none, none],
       row0, row0, row0, row0, row0, row0,
       [wsq .q, none, none, none, wsq .k, none, none, none]]
  | .qkm =>
      [[bsq .q, none, none, none, bsq .k, none, none, none],
       row0, row0, row0, row0, row0, row0,
       [none, none, none, none, wsq .k, none, none, none]]
  | .pawnP =>
      [[none, none, none, none, bsq .k, none, none, none],
       row0, row0, row0, row0, row0,
       [wsq .p, none, none, none, none, none, none, none],
       [none, none, none, none, wsq .k, none, none, none]]

def ScenPos.turnOf : ScenPos → Color
  | .mateB | .stale | .c4root | .qkm => Color.b
  | _ => Color.w

def ScenPos.movesOf : ScenPos → List Mv
  | .kk | .mateW | .mateB | .stale => []
  | .c4root => mvs ["Ke7", "Kf7", "Kf8"]
  | .c4ke7 => mvs
      ["Qd2", "Qd3", "Qd4", "Qd5", "Qd6", "Qd7+", "Qd8+", "Qc1", "Qb1", "Qa1",
       "Qe2", "Qf3", "Qg4", "Qh5", "Qc2", "Qb3", "Qa4", "Kd2", "Ke2", "Kf2", "Kf1"]
  | .c4kf7 => mvs
      ["Qd2", "Qd3", "Qd4", "Qd5+", "Qd6", "Qd7+", "Qd8", "Qc1", "Qb1", "Qa1",
       "Qe2", "Qf3+", "Qg4", "Qh5+", "Qc2", "Qb3+", "Qa4", "Kd2", "Ke2", "Kf2", "Kf1"]
  | .c4kf8 => mvs
      ["Qd2", "Qd3", "Qd4", "Qd5", "Qd6+", "Qd7", "Qd8+", "Qc1", "Qb1", "Qa1",
       "Qe2", "Qf3+", "Qg4", "Qh5", "Qc2", "Qb3", "Qa4", "Kd2", "Ke2", "Kf2", "Kf1"]
  | .qk => mvs
      ["Qa2", "Qa3", "Qa4+", "Qa5", "Qa6", "Qa7", "Qa8+", "Qb1", "Qc1", "Qd1",
       "Qb2", "Qc3", "Qd4", "Qe5+", "Qf6", "Qg7", "Qh8+",
       "Kd1", "Kd2", "Ke2", "Kf2", "Kf1"]
  | .qkm => mvs
      ["Qa7", "Qa6", "Qa5+", "Qa4", "Qa3", "Qa2", "Qa1+", "Qb8", "Qc8", "Qd8",
       "Qb7", "Qc6", "Qd5", "Qe4+", "Qf3", "Qg2", "Qh1+",
       "Kd8", "Kd7", "Ke7", "Kf7", "Kf8"]
  | .pawnP => mvs ["a3", "a4", "Kd1", "Kd2", "Ke2", "Kf2", "Kf1"]

def ScenPos.fenOf : ScenPos → String
  | .kk => "4k3/8/8/8/8/8/8/4K3 w - - 0 1"
  | .mateW => "6k1/8/8/8/8/8/5PPP/4r1K1 w - - 0 1"
  | .mateB => "4R1k1/5ppp/8/8/8/8/8/6K1 b - - 0 1"
  | .stale => "7k/5K2/6Q1/8/8/8/8/8 b - - 0 1"
  | .c4root => "4k3/8/8/8/8/8/8/3QK3 b - - 0 1"
  | .c4ke7 => "8/4k3/8/8/8/8/8/3QK3 w - - 1 2"
  | .c4kf7 => "8/5k2/8/8/8/8/8/3QK3 w - - 1 2"
  | .c4kf8 => "5k2/8/8/8/8/8/8/3QK3 w - - 1 2"
  | .qk => "4k3/8/8/8/8/8/8/Q3K3 w - - 0 1"
  | .qkm => "q3k3/8/8/8/8/8/8/4K3 b - - 0 1"
  | .pawnP => "4k3/8/8/8/8/8/P7/4K3 w - - 0 1"

def ScenPos.fromFenOf (s : String) : ScenPos :=
  if s = ScenPos.fenOf .mateW then .mateW
  else if s = ScenPos.fenOf .mateB then .mateB
  else if s = ScenPos.fenOf .stale then .stale
  else if s = ScenPos.fenOf .c4root then .c4root
  else if s = ScenPos.fenOf .c4ke7 then .c4ke7
  else if s = ScenPos.fenOf .c4kf7 then .c4kf7
  else if s = ScenPos.fenOf .c4kf8 then .c4kf8
  else if s = ScenPos.fenOf .qk then .qk
  else if s = ScenPos.fenOf .qkm then .qkm
  else if s = ScenPos.fenOf .pawnP then .pawnP
  else .kk

def ScenPos.applyOf : ScenPos → Mv → ScenPos
  | .c4root, m =>
      if m.san = "Ke7" then .c4ke7
      else if m.san = "Kf7" then .c4kf7
      else if m.san = "Kf8" then .c4kf8
      else .kk
  | _, _ => .kk

/-- The concrete rules oracle over `ScenPos`. -/
def scen : Oracle ScenPos where
  board := ScenPos.boardOf
  turn := ScenPos.turnOf
  moves := ScenPos.movesOf
  applyMove := ScenPos.applyOf
  isCheckmate := fun p => decide (p = .mateW ∨ p = .mateB)
  isStalemate := fun p => decide (p = .stale)
  isDraw := fun p => decide (p = .kk)
  isThreefoldRepetition := fun _ => false
  isInsufficientMaterial := fun p => decide (p = .kk)
  isGameOver := fun p => decide (p = .kk ∨ p = .mateW ∨ p = .mateB ∨ p = .stale)
  fen := ScenPos.fenOf
  fromFen := ScenPos.fromFenOf

/-! ## Push/pop discipline: the search returns the game as it found it -/

lemma maxLoop_fst {Pos : Type} (O : Oracle Pos)
    (f : Game Pos → Score → Score → Bool → Game Pos × SearchResult)
    (hf : ∀ g a b m, (f g a b m).1 = g) :
    ∀ (ms : List Mv) (g : Game Pos) (alpha beta s : Score) (bm : Option Mv),
      (maxLoop O f ms g alpha beta s bm).1 = g := by
  intro ms
  induction ms with
  | nil => intro g a b s bm; rfl
  | cons mv rest ih =>
    intro g a b s bm
    simp only [maxLoop, hf, Game.undo_move]
    split <;> split <;> first | rfl | exact ih _ _ _ _ _

lemma minLoop_fst {Pos : Type} (O : Oracle Pos)
    (f : Game Pos → Score → Score → Bool → Game Pos × SearchResult)
    (hf : ∀ g a b m, (f g a b m).1 = g) :
    ∀ (ms : List Mv) (g : Game Pos) (alpha beta s : Score) (bm : Option Mv),
      (minLoop O f ms g alpha beta s bm).1 = g := by
  intro ms
  induction ms with
  | nil => intro g a b s bm; rfl
  | cons mv rest ih =>
    intro g a b s bm
    simp only [minLoop, hf, Game.undo_move]
    split <;> split <;> first | rfl | exact ih _ _ _ _ _

/-- A full search call leaves the threaded game object exactly as it found
it, at every depth, for every window, including when a loop exits early
through the pruning break. -/
lemma minimax_fst {Pos : Type} (O : Oracle Pos) :
    ∀ (d : Nat) (g : Game Pos) (alpha beta : Score) (isMax : Bool),
      (minimax O d g alpha beta isMax).1 = g := by
  intro d
  induction d with
  | zero => intro g a b m; rfl
  | succ d ih =>
    intro g a b m
    simp only [minimax]
    split
    · rfl
    · split
      · exact maxLoop_fst O (minimax O d) (fun g a b m => ih g a b m) _ g a b _ _
      · exact minLoop_fst O (minimax O d) (fun g a b m => ih g a b m) _ g a b _ _

/-! ## Unfolding normal forms for the search loops -/

lemma maxLoop_cons_eq {Pos : Type} (O : Oracle Pos) (d : Nat) (mv : Mv)
    (rest : List Mv) (g : Game Pos) (alpha beta m : Score) (bm : Option Mv) :
    maxLoop O (minimax O d) (mv :: rest) g alpha beta m bm =
      (if beta ≤ max alpha (max m ((minimax O d (Game.move O g mv) alpha beta false).2.score))
       then (g, max m ((minimax O d (Game.move O g mv) alpha beta false).2.score),
             if m < (minimax O d (Game.move O g mv) alpha beta false).2.score
             then some mv else bm)
       else maxLoop O (minimax O d) rest g
              (max alpha (max m ((minimax O d (Game.move O g mv) alpha beta false).2.score)))
              beta
              (max m ((minimax O d (Game.move O g mv) alpha beta false).2.score))
              (if m < (minimax O d (Game.move O g mv) alpha beta false).2.score
               then some mv else bm)) := by
  simp only [maxLoop, minimax_fst, Game.undo_move, strict_if_eq_max]

lemma minLoop_cons_eq {Pos : Type} (O : Oracle Pos) (d : Nat) (mv : Mv)
    (rest : List Mv) (g : Game Pos) (alpha beta m : Score) (bm : Option Mv) :
    minLoop O (minimax O d) (mv :: rest) g alpha beta m bm =
      (if min beta (min m ((minimax O d (Game.move O g mv) alpha beta true).2.score)) ≤ alpha
       then (g, min m ((minimax O d (Game.move O g mv) alpha beta true).2.score),
             if (minimax O d (Game.move O g mv) alpha beta true).2.score < m
             then some mv else bm)
       else minLoop O (minimax O d) rest g alpha
              (min beta (min m ((minimax O d (Game.move O g mv) alpha beta true).2.score)))
              (min m ((minimax O d (Game.move O g mv) alpha beta true).2.score))
              (if (minimax O d (Game.move O g mv) alpha beta true).2.score < m
               then some mv else bm)) := by
  simp only [minLoop, minimax_fst, Game.undo_move, strict_if_eq_min]

lemma noPruneMaxLoop_cons_eq {Pos : Type} (O : Oracle Pos)
    (f : Pos → Bool → Score × Option Mv) (mv : Mv) (rest : List Mv) (p : Pos)
    (b : Score) (bm : Option Mv) :
    noPruneMaxLoop O f (mv :: rest) p b bm =
      noPruneMaxLoop O f rest p (max b (f (O.applyMove p mv) false).1)
        (if b < (f (O.applyMove p mv) false).1 then some mv else bm) := by
  simp only [noPruneMaxLoop, strict_if_eq_max]

lemma noPruneMinLoop_cons_eq {Pos : Type} (O : Oracle Pos)
    (f : Pos → Bool → Score × Option Mv) (mv : Mv) (rest : List Mv) (p : Pos)
    (b : Score) (bm : Option Mv) :
    noPruneMinLoop O f (mv :: rest) p b bm =
      noPruneMinLoop O f rest p (min b (f (O.applyMove p mv) true).1)
        (if (f (O.applyMove p mv) true).1 < b then some mv else bm) := by
  simp only [noPruneMinLoop, strict_if_eq_min]

/-! ## Bounds on the exhaustive fold -/

lemma noPruneMaxLoop_seed_le {Pos : Type} (O : Oracle Pos)
    (f : Pos → Bool → Score × Option Mv) :
    ∀ (ms : List Mv) (p : Pos) (b : Score) (bm : Option Mv),
      b ≤ (noPruneMaxLoop O f ms p b bm).1 := by
  intro ms
  induction ms with
  | nil => intro p b bm; exact le_refl b
  | cons mv rest ih =>
    intro p b bm
    rw [noPruneMaxLoop_cons_eq]
    exact le_trans (le_max_left _ _) (ih p _ _)

lemma noPruneMinLoop_le_seed {Pos : Type} (O : Oracle Pos)
    (f : Pos → Bool → Score × Option Mv) :
    ∀ (ms : List Mv) (p : Pos) (b : Score) (bm : Option Mv),
      (noPruneMinLoop O f ms p b bm).1 ≤ b := by
  intro ms
  induction ms with
  | nil => intro p b bm; exact le_refl b
  | cons mv rest ih =>
    intro p b bm
    rw [noPruneMinLoop_cons_eq]
    exact le_trans (ih p _ _) (min_le_left _ _)

lemma noPruneMaxLoop_elem_le {Pos : Type} (O : Oracle Pos)
    (f : Pos → Bool → Score × Option Mv) :
    ∀ (ms : List Mv) (p : Pos) (b : Score) (bm : Option Mv) (mv : Mv),
      mv ∈ ms → (f (O.applyMove p mv) false).1 ≤ (noPruneMaxLoop O f ms p b bm).1 := by
  intro ms
  induction ms with
  | nil => intro p b bm mv h; cases h
  | cons mv0 rest ih =>
    intro p b bm mv h
    rw [noPruneMaxLoop_cons_eq]
    rcases List.mem_cons.mp h with h | h
    · subst h
      exact le_trans (le_max_right _ _) (noPruneMaxLoop_seed_le O f rest p _ _)
    · exact ih p _ _ mv h

lemma noPruneMinLoop_le_elem {Pos : Type} (O : Oracle Pos)
    (f : Pos → Bool → Score × Option Mv) :
    ∀ (ms : List Mv) (p : Pos) (b : Score) (bm : Option Mv) (mv : Mv),
      mv ∈ ms → (noPruneMinLoop O f ms p b bm).1 ≤ (f (O.applyMove p mv) true).1 := by
  intro ms
  induction ms with
  | nil => intro p b bm mv h; cases h
  | cons mv0 rest ih =>
    intro p b bm mv h
    rw [noPruneMinLoop_cons_eq]
    rcases List.mem_cons.mp h with h | h
    · subst h
      exact le_trans (noPruneMinLoop_le_seed O f rest p _ _) (min_le_right _ _)
    · exact ih p _ _ mv h

/-- If every child value is at most the seed, the exhaustive maximizing
fold returns the seed and never updates its best move. -/
lemma noPruneMaxLoop_const {Pos : Type} (O : Oracle Pos)
    (f : Pos → Bool → Score × Option Mv) :
    ∀ (ms : List Mv) (p : Pos) (b : Score) (bm : Option Mv),
      (∀ mv ∈ ms, (f (O.applyMove p mv) false).1 ≤ b) →
      noPruneMaxLoop O f ms p b bm = (b, bm) := by
  intro ms
  induction ms with
  | nil => intro p b bm _; rfl
  | cons mv rest ih =>
    intro p b bm h
    rw [noPruneMaxLoop_cons_eq]
    have hv : (f (O.applyMove p mv) false).1 ≤ b := h mv (List.mem_cons_self _ _)
    rw [max_eq_left hv, if_neg (not_lt_of_ge hv)]
    exact ih p b bm (fun mv' h' => h mv' (List.mem_cons_of_mem _ h'))

/-- If every child value is at least the seed, the exhaustive minimizing
fold returns the seed and never updates its best move. -/
lemma noPruneMinLoop_const {Pos : Type} (O : Oracle Pos)
    (f : Pos → Bool → Score × Option Mv) :
    ∀ (ms : List Mv) (p : Pos) (b : Score) (bm : Option Mv),
      (∀ mv ∈ ms, b ≤ (f (O.applyMove p mv) true).1) →
      noPruneMinLoop O f ms p b bm = (b, bm) := by
  intro ms
  induction ms with
  | nil => intro p b bm _; rfl
  | cons mv rest ih =>
    intro p b bm h
    rw [noPruneMinLoop_cons_eq]
    have hv : b ≤ (f (O.applyMove p mv) true).1 := h mv (List.mem_cons_self _ _)
    rw [min_eq_left hv, if_neg (not_lt_of_ge hv)]
    exact ih p b bm (fun mv' h' => h mv' (List.mem_cons_of_mem _ h'))

/-! ## Knuth–Moore soundness of alpha-beta against exhaustive minimax -/

/-- At depth `d`, for every window `alpha < beta` and both perspectives,
the pruned search is sound against the exhaustive value `v`: a fail-low
result is an upper bound on `v` not above `alpha`, an in-window result is
exactly `v`, and a fail-high result is a lower bound on `v` not below
`beta` (the search is fail-soft, so the failed bounds are still bounded by
`v` on the other side). -/
def KMprop {Pos : Type} (O : Oracle Pos) (d : Nat) : Prop :=
  ∀ (g : Game Pos) (alpha beta : Score) (isMax : Bool), alpha < beta →
    ((minimaxNoPrune O d g.pos isMax).1 ≤ alpha →
        (minimaxNoPrune O d g.pos isMax).1 ≤ (minimax O d g alpha beta isMax).2.score ∧
        (minimax O d g alpha beta isMax).2.score ≤ alpha) ∧
    (alpha < (minimaxNoPrune O d g.pos isMax).1 →
      (minimaxNoPrune O d g.pos isMax).1 < beta →
        (minimax O d g alpha beta isMax).2.score = (minimaxNoPrune O d g.pos isMax).1) ∧
    (beta ≤ (minimaxNoPrune O d g.pos isMax).1 →
        beta ≤ (minimax O d g alpha beta isMax).2.score ∧
        (minimax O d g alpha beta isMax).2.score ≤ (minimaxNoPrune O d g.pos isMax).1)

/-- Fail-low maximizing loop: when every remaining child value is at most
`alpha`, the pruned loop stays at or below `alpha` and at or above the
exhaustive fold. -/
lemma kmA_max {Pos : Type} (O : Oracle Pos) (d : Nat) (hK : KMprop O d) :
    ∀ (ms : List Mv) (g : Game Pos) (alpha beta mA mP : Score)
      (bmA bmP : Option Mv),
      alpha < beta → mA ≤ alpha → mP ≤ mA →
      (∀ mv ∈ ms, (minimaxNoPrune O d (O.applyMove g.pos mv) false).1 ≤ alpha) →
      (maxLoop O (minimax O d) ms g alpha beta mA bmA).2.1 ≤ alpha ∧
      (noPruneMaxLoop O (minimaxNoPrune O d) ms g.pos mP bmP).1 ≤
        (maxLoop O (minimax O d) ms g alpha beta mA bmA).2.1 := by
  intro ms
  induction ms with
  | nil =>
    intro g alpha beta mA mP bmA bmP hab hmA hmP _
    exact ⟨hmA, hmP⟩
  | cons mv rest ih =>
    intro g alpha beta mA mP bmA bmP hab hmA hmP hall
    have hva : (minimaxNoPrune O d (O.applyMove g.pos mv) false).1 ≤ alpha :=
      hall mv (List.mem_cons_self _ _)
    have hch := hK (Game.move O g mv) alpha beta false hab
    rw [Game.move_pos] at hch
    obtain ⟨hvr, hra⟩ := hch.1 hva
    rw [maxLoop_cons_eq, noPruneMaxLoop_cons_eq]
    have h1 : max mA ((minimax O d (Game.move O g mv) alpha beta false).2.score) ≤ alpha :=
      max_le hmA hra
    rw [max_eq_left h1, if_neg hab.not_le]
    exact ih g alpha beta _ _ _ _ hab h1 (max_le_max hmP hvr)
      (fun mv' h' => hall mv' (List.mem_cons_of_mem _ h'))

/-- Fail-high minimizing loop: when every remaining child value is at
least `beta`, the pruned loop stays at or above `beta` and at or below the
exhaustive fold. -/
lemma kmA_min {Pos : Type} (O : Oracle Pos) (d : Nat) (hK : KMprop O d) :
    ∀ (ms : List Mv) (g : Game Pos) (alpha beta mA mP : Score)
      (bmA bmP : Option Mv),
      alpha < beta → beta ≤ mA → mA ≤ mP →
      (∀ mv ∈ ms, beta ≤ (minimaxNoPrune O d (O.applyMove g.pos mv) true).1) →
      beta ≤ (minLoop O (minimax O d) ms g alpha beta mA bmA).2.1 ∧
      (minLoop O (minimax O d) ms g alpha beta mA bmA).2.1 ≤
        (noPruneMinLoop O (minimaxNoPrune O d) ms g.pos mP bmP).1 := by
  intro ms
  induction ms with
  | nil =>
    intro g alpha beta mA mP bmA bmP hab hmA hmP _
    exact ⟨hmA, hmP⟩
  | cons mv rest ih =>
    intro g alpha beta mA mP bmA bmP hab hmA hmP hall
    have hva : beta ≤ (minimaxNoPrune O d (O.applyMove g.pos mv) true).1 :=
      hall mv (List.mem_cons_self _ _)
    have hch := hK (Game.move O g mv) alpha beta true hab
    rw [Game.move_pos] at hch
    obtain ⟨hbr, hrv⟩ := hch.2.2 hva
    rw [minLoop_cons_eq, noPruneMinLoop_cons_eq]
    have h1 : beta ≤ min mA ((minimax O d (Game.move O g mv) alpha beta true).2.score) :=
      le_min hmA hbr
    rw [min_eq_left h1, if_neg hab.not_le]
    exact ih g alpha beta _ _ _ _ hab h1 (min_le_min hmP hrv)
      (fun mv' h' => hall mv' (List.mem_cons_of_mem _ h'))

/-- A maximizing loop whose running best equals `alpha` and whose
remaining children are all worth at most `alpha` returns `alpha` and never
touches its best move. -/
lemma abMaxLoop_const {Pos : Type} (O : Oracle Pos) (d : Nat) (hK : KMprop O d) :
    ∀ (ms : List Mv) (g : Game Pos) (alpha beta : Score) (bm : Option Mv),
      alpha < beta →
      (∀ mv ∈ ms, (minimaxNoPrune O d (O.applyMove g.pos mv) false).1 ≤ alpha) →
      (maxLoop O (minimax O d) ms g alpha beta alpha bm).2 = (alpha, bm) := by
  intro ms
  induction ms with
  | nil => intro g alpha beta bm _ _; rfl
  | cons mv rest ih =>
    intro g alpha beta bm hab hall
    have hva : (minimaxNoPrune O d (O.applyMove g.pos mv) false).1 ≤ alpha :=
      hall mv (List.mem_cons_self _ _)
    have hch := hK (Game.move O g mv) alpha beta false hab
    rw [Game.move_pos] at hch
    obtain ⟨hvr, hra⟩ := hch.1 hva
    rw [maxLoop_cons_eq, max_eq_left hra]
    simp only [max_self]
    rw [if_neg (not_lt_of_ge hra), if_neg hab.not_le]
    exact ih g alpha beta bm hab (fun mv' h' => hall mv' (List.mem_cons_of_mem _ h'))

/-- A minimizing loop whose running best equals `beta` and whose remaining
children are all worth at least `beta` returns `beta` and never touches
its best move. -/
lemma abMinLoop_const {Pos : Type} (O : Oracle Pos) (d : Nat) (hK : KMprop O d) :
    ∀ (ms : List Mv) (g : Game Pos) (alpha beta : Score) (bm : Option Mv),
      alpha < beta →
      (∀ mv ∈ ms, beta ≤ (minimaxNoPrune O d (O.applyMove g.pos mv) true).1) →
      (minLoop O (minimax O d) ms g alpha beta beta bm).2 = (beta, bm) := by
  intro ms
  induction ms with
  | nil => intro g alpha beta bm _ _; rfl
  | cons mv rest ih =>
    intro g alpha beta bm hab hall
    have hva : beta ≤ (minimaxNoPrune O d (O.applyMove g.pos mv) true).1 :=
      hall mv (List.mem_cons_self _ _)
    have hch := hK (Game.move O g mv) alpha beta true hab
    rw [Game.move_pos] at hch
    obtain ⟨hbr, hrv⟩ := hch.2.2 hva
    rw [minLoop_cons_eq, min_eq_left hbr]
    simp only [min_self]
    rw [if_neg (not_lt_of_ge hbr), if_neg hab.not_le]
    exact ih g alpha beta bm hab (fun mv' h' => hall mv' (List.mem_cons_of_mem _ h'))

/-- Fail-high maximizing loop: when the exhaustive fold reaches at least
`beta`, the pruned loop (possibly breaking early) returns a score between
`beta` and the exhaustive value. -/
lemma kmC_max {Pos : Type} (O : Oracle Pos) (d : Nat) (hK : KMprop O d) :
    ∀ (ms : List Mv) (g : Game Pos) (alpha beta mA mP : Score)
      (bmA bmP : Option Mv),
      alpha < beta → mA ≤ alpha → mP ≤ mA →
      beta ≤ (noPruneMaxLoop O (minimaxNoPrune O d) ms g.pos mP bmP).1 →
      beta ≤ (maxLoop O (minimax O d) ms g alpha beta mA bmA).2.1 ∧
      (maxLoop O (minimax O d) ms g alpha beta mA bmA).2.1 ≤
        (noPruneMaxLoop O (minimaxNoPrune O d) ms g.pos mP bmP).1 := by
  intro ms
  induction ms with
  | nil =>
    intro g alpha beta mA mP bmA bmP hab hmA hmP hbV
    exact absurd (lt_of_le_of_lt (hbV.trans (hmP.trans hmA)) hab) (lt_irrefl beta)
  | cons mv rest ih =>
    intro g alpha beta mA mP bmA bmP hab hmA hmP hbV
    have hch := hK (Game.move O g mv) alpha beta false hab
    rw [Game.move_pos] at hch
    rw [noPruneMaxLoop_cons_eq] at hbV ⊢
    rw [maxLoop_cons_eq]
    rcases le_or_lt (minimaxNoPrune O d (O.applyMove g.pos mv) false).1 alpha with hva | hva
    · obtain ⟨hvr, hra⟩ := hch.1 hva
      have h1 : max mA ((minimax O d (Game.move O g mv) alpha beta false).2.score) ≤ alpha :=
        max_le hmA hra
      rw [max_eq_left h1, if_neg hab.not_le]
      exact ih g alpha beta _ _ _ _ hab h1 (max_le_max hmP hvr) hbV
    · rcases lt_or_ge (minimaxNoPrune O d (O.applyMove g.pos mv) false).1 beta with hvb | hvb
      · have hr : (minimax O d (Game.move O g mv) alpha beta false).2.score =
            (minimaxNoPrune O d (O.applyMove g.pos mv) false).1 := hch.2.1 hva hvb
        rw [hr]
        have hmAv : mA ≤ (minimaxNoPrune O d (O.applyMove g.pos mv) false).1 :=
          hmA.trans hva.le
        have hmPv : mP ≤ (minimaxNoPrune O d (O.applyMove g.pos mv) false).1 :=
          hmP.trans hmAv
        rw [max_eq_right hmAv, max_eq_right hva.le, if_neg (not_le_of_lt hvb),
          max_eq_right hmPv] at *
        exact ih g _ beta _ _ _ _ hvb (le_refl _) (le_refl _) hbV
      · obtain ⟨hbr, hrv⟩ := hch.2.2 hvb
        have hmAr : mA ≤ (minimax O d (Game.move O g mv) alpha beta false).2.score :=
          hmA.trans (hab.le.trans hbr)
        have har : alpha ≤ (minimax O d (Game.move O g mv) alpha beta false).2.score :=
          hab.le.trans hbr
        rw [max_eq_right hmAr, max_eq_right har, if_pos hbr]
        refine ⟨hbr, ?_⟩
        exact hrv.trans ((le_max_right mP _).trans
          (noPruneMaxLoop_seed_le O (minimaxNoPrune O d) rest g.pos _ _))

/-- Fail-low minimizing loop: when the exhaustive fold reaches at most
`alpha`, the pruned loop (possibly breaking early) returns a score between
the exhaustive value and `alpha`. -/
lemma kmC_min {Pos : Type} (O : Oracle Pos) (d : Nat) (hK : KMprop O d) :
    ∀ (ms : List Mv) (g : Game Pos) (alpha beta mA mP : Score)
      (bmA bmP : Option Mv),
      alpha < beta → beta ≤ mA → mA ≤ mP →
      (noPruneMinLoop O (minimaxNoPrune O d) ms g.pos mP bmP).1 ≤ alpha →
      (noPruneMinLoop O (minimaxNoPrune O d) ms g.pos mP bmP).1 ≤
        (minLoop O (minimax O d) ms g alpha beta mA bmA).2.1 ∧
      (minLoop O (minimax O d) ms g alpha beta mA bmA).2.1 ≤ alpha := by
  intro ms
  induction ms with
  | nil =>
    intro g alpha beta mA mP bmA bmP hab hmA hmP hVa
    exact absurd (lt_of_lt_of_le hab (hmA.trans (hmP.trans hVa))) (lt_irrefl alpha)
  | cons mv rest ih =>
    intro g alpha beta mA mP bmA bmP hab hmA hmP hVa
    have hch := hK (Game.move O g mv) alpha beta true hab
    rw [Game.move_pos] at hch
    rw [noPruneMinLoop_cons_eq] at hVa ⊢
    rw [minLoop_cons_eq]
    rcases le_or_lt beta (minimaxNoPrune O d (O.applyMove g.pos mv) true).1 with hvb | hvb
    · obtain ⟨hbr, hrv⟩ := hch.2.2 hvb
      have h1 : beta ≤ min mA ((minimax O d (Game.move O g mv) alpha beta true).2.score) :=
        le_min hmA hbr
      rw [min_eq_left h1, if_neg hab.not_le]
      exact ih g alpha beta _ _ _ _ hab h1 (min_le_min hmP hrv) hVa
    · rcases lt_or_ge alpha (minimaxNoPrune O d (O.applyMove g.pos mv) true).1 with hva | hva
      · have hr : (minimax O d (Game.move O g mv) alpha beta true).2.score =
            (minimaxNoPrune O d (O.applyMove g.pos mv) true).1 := hch.2.1 hva hvb
        rw [hr]
        have hvmA : (minimaxNoPrune O d (O.applyMove g.pos mv) true).1 ≤ mA :=
          hvb.le.trans hmA
        have hvmP : (minimaxNoPrune O d (O.applyMove g.pos mv) true).1 ≤ mP :=
          hvmA.trans hmP
        rw [min_eq_right hvmA, min_eq_right hvb.le, if_neg (not_le_of_lt hva),
          min_eq_right hvmP] at *
        exact ih g alpha _ _ _ _ _ hva (le_refl _) (le_refl _) hVa
      · obtain ⟨hvr, hra⟩ := hch.1 hva
        have hrmA : (minimax O d (Game.move O g mv) alpha beta true).2.score ≤ mA :=
          hra.trans (hab.le.trans hmA)
        have hrb : (minimax O d (Game.move O g mv) alpha beta true).2.score ≤ beta :=
          hra.trans hab.le
        rw [min_eq_right hrmA, min_eq_right hrb, if_pos hra]
        refine ⟨?_, hra⟩
        exact le_trans ((noPruneMinLoop_le_seed O (minimaxNoPrune O d) rest g.pos _ _).trans
          (min_le_right mP _)) hvr

/-- In-window maximizing loop: when the exhaustive fold lands strictly
inside the window, the pruned loop returns exactly the exhaustive score
and exactly the exhaustive best move. -/
lemma kmB_max {Pos : Type} (O : Oracle Pos) (d : Nat) (hK : KMprop O d) :
    ∀ (ms : List Mv) (g : Game Pos) (alpha beta mA mP : Score)
      (bmA bmP : Option Mv),
      alpha < beta → mA ≤ alpha → mP ≤ mA →
      alpha < (noPruneMaxLoop O (minimaxNoPrune O d) ms g.pos mP bmP).1 →
      (noPruneMaxLoop O (minimaxNoPrune O d) ms g.pos mP bmP).1 < beta →
      (maxLoop O (minimax O d) ms g alpha beta mA bmA).2.1 =
        (noPruneMaxLoop O (minimaxNoPrune O d) ms g.pos mP bmP).1 ∧
      (maxLoop O (minimax O d) ms g alpha beta mA bmA).2.2 =
        (noPruneMaxLoop O (minimaxNoPrune O d) ms g.pos mP bmP).2 := by
  intro ms
  induction ms with
  | nil =>
    intro g alpha beta mA mP bmA bmP hab hmA hmP haV _
    exact absurd (lt_of_lt_of_le haV (hmP.trans hmA)) (lt_irrefl alpha)
  | cons mv rest ih =>
    intro g alpha beta mA mP bmA bmP hab hmA hmP haV hVb
    have hch := hK (Game.move O g mv) alpha beta false hab
    rw [Game.move_pos] at hch
    rw [noPruneMaxLoop_cons_eq] at haV hVb ⊢
    rw [maxLoop_cons_eq]
    rcases le_or_lt (minimaxNoPrune O d (O.applyMove g.pos mv) false).1 alpha with hva | hva
    · obtain ⟨hvr, hra⟩ := hch.1 hva
      have h1 : max mA ((minimax O d (Game.move O g mv) alpha beta false).2.score) ≤ alpha :=
        max_le hmA hra
      rw [max_eq_left h1, if_neg hab.not_le]
      exact ih g alpha beta _ _ _ _ hab h1 (max_le_max hmP hvr) haV hVb
    · have hvV : (minimaxNoPrune O d (O.applyMove g.pos mv) false).1 ≤
          (noPruneMaxLoop O (minimaxNoPrune O d) rest g.pos
            (max mP ((minimaxNoPrune O d (O.applyMove g.pos mv) false).1))
            (if mP < (minimaxNoPrune O d (O.applyMove g.pos mv) false).1
             then some mv else bmP)).1 :=
        (le_max_right mP _).trans (noPruneMaxLoop_seed_le O (minimaxNoPrune O d) rest g.pos _ _)
      have hvb : (minimaxNoPrune O d (O.applyMove g.pos mv) false).1 < beta :=
        lt_of_le_of_lt hvV hVb
      have hr : (minimax O d (Game.move O g mv) alpha beta false).2.score =
          (minimaxNoPrune O d (O.applyMove g.pos mv) false).1 := hch.2.1 hva hvb
      rw [hr]
      have hmAv : mA < (minimaxNoPrune O d (O.applyMove g.pos mv) false).1 :=
        lt_of_le_of_lt hmA hva
      have hmPv : mP < (minimaxNoPrune O d (O.applyMove g.pos mv) false).1 :=
        lt_of_le_of_lt hmP hmAv
      rw [max_eq_right hmAv.le, max_eq_right hva.le, if_pos hmAv, if_pos hmPv,
        max_eq_right hmPv.le] at *
      rcases lt_or_ge (minimaxNoPrune O d (O.applyMove g.pos mv) false).1
          (noPruneMaxLoop O (minimaxNoPrune O d) rest g.pos
            (minimaxNoPrune O d (O.applyMove g.pos mv) false).1 (some mv)).1 with hvV' | hV'v
      · rw [if_neg (not_le_of_lt hvb)]
        exact ih g _ beta _ _ _ _ hvb (le_refl _) (le_refl _) hvV' hVb
      · have hEq : (noPruneMaxLoop O (minimaxNoPrune O d) rest g.pos
            (minimaxNoPrune O d (O.applyMove g.pos mv) false).1 (some mv)).1 =
            (minimaxNoPrune O d (O.applyMove g.pos mv) false).1 :=
          le_antisymm hV'v (noPruneMaxLoop_seed_le O (minimaxNoPrune O d) rest g.pos _ _)
        have hallrest : ∀ mv' ∈ rest, (minimaxNoPrune O d (O.applyMove g.pos mv') false).1 ≤
            (minimaxNoPrune O d (O.applyMove g.pos mv) false).1 := by
          intro mv' h'
          exact le_trans (noPruneMaxLoop_elem_le O (minimaxNoPrune O d) rest g.pos _ _ mv' h') hV'v
        rw [if_neg (not_le_of_lt hvb)]
        rw [noPruneMaxLoop_const O (minimaxNoPrune O d) rest g.pos _ (some mv) hallrest]
        rw [abMaxLoop_const O d hK rest g _ beta (some mv) hvb hallrest]
        exact ⟨rfl, rfl⟩

/-- In-window minimizing loop: when the exhaustive fold lands strictly
inside the window, the pruned loop returns exactly the exhaustive score
and exactly the exhaustive best move. -/
lemma kmB_min {Pos : Type} (O : Oracle Pos) (d : Nat) (hK : KMprop O d) :
    ∀ (ms : List Mv) (g : Game Pos) (alpha beta mA mP : Score)
      (bmA bmP : Option Mv),
      alpha < beta → beta ≤ mA → mA ≤ mP →
      alpha < (noPruneMinLoop O (minimaxNoPrune O d) ms g.pos mP bmP).1 →
      (noPruneMinLoop O (minimaxNoPrune O d) ms g.pos mP bmP).1 < beta →
      (minLoop O (minimax O d) ms g alpha beta mA bmA).2.1 =
        (noPruneMinLoop O (minimaxNoPrune O d) ms g.pos mP bmP).1 ∧
      (minLoop O (minimax O d) ms g alpha beta mA bmA).2.2 =
        (noPruneMinLoop O (minimaxNoPrune O d) ms g.pos mP bmP).2 := by
  intro ms
  induction ms with
  | nil =>
    intro g alpha beta mA mP bmA bmP hab hmA hmP _ hVb
    exact absurd (lt_of_le_of_lt (hmA.trans hmP) hVb) (lt_irrefl beta)
  | cons mv rest ih =>
    intro g alpha beta mA mP bmA bmP hab hmA hmP haV hVb
    have hch := hK (Game.move O g mv) alpha beta true hab
    rw [Game.move_pos] at hch
    rw [noPruneMinLoop_cons_eq] at haV hVb ⊢
    rw [minLoop_cons_eq]
    rcases le_or_lt beta (minimaxNoPrune O d (O.applyMove g.pos mv) true).1 with hvb | hvb
    · obtain ⟨hbr, hrv⟩ := hch.2.2 hvb
      have h1 : beta ≤ min mA ((minimax O d (Game.move O g mv) alpha beta true).2.score) :=
        le_min hmA hbr
      rw [min_eq_left h1, if_neg hab.not_le]
      exact ih g alpha beta _ _ _ _ hab h1 (min_le_min hmP hrv) haV hVb
    · have hVv : (noPruneMinLoop O (minimaxNoPrune O d) rest g.pos
            (min mP ((minimaxNoPrune O d (O.applyMove g.pos mv) true).1))
            (if (minimaxNoPrune O d (O.applyMove g.pos mv) true).1 < mP
             then some mv else bmP)).1 ≤
          (minimaxNoPrune O d (O.applyMove g.pos mv) true).1 :=
        (noPruneMinLoop_le_seed O (minimaxNoPrune O d) rest g.pos _ _).trans (min_le_right mP _)
      have hva : alpha < (minimaxNoPrune O d (O.applyMove g.pos mv) true).1 :=
        lt_of_lt_of_le haV hVv
      have hr : (minimax O d (Game.move O g mv) alpha beta true).2.score =
          (minimaxNoPrune O d (O.applyMove g.pos mv) true).1 := hch.2.1 hva hvb
      rw [hr]
      have hvmA : (minimaxNoPrune O d (O.applyMove g.pos mv) true).1 < mA :=
        lt_of_lt_of_le hvb hmA
      have hvmP : (minimaxNoPrune O d (O.applyMove g.pos mv) true).1 < mP :=
        lt_of_lt_of_le hvmA hmP
      rw [min_eq_right hvmA.le, min_eq_right hvb.le, if_pos hvmA, if_pos hvmP,
        min_eq_right hvmP.le] at *
      rcases lt_or_ge (noPruneMinLoop O (minimaxNoPrune O d) rest g.pos
          (minimaxNoPrune O d (O.applyMove g.pos mv) true).1 (some mv)).1
          (minimaxNoPrune O d (O.applyMove g.pos mv) true).1 with hV'v | hvV'
      · rw [if_neg (not_le_of_lt hva)]
        exact ih g alpha _ _ _ _ _ hva (le_refl _) (le_refl _) haV hV'v
      · have hEq : (noPruneMinLoop O (minimaxNoPrune O d) rest g.pos
            (minimaxNoPrune O d (O.applyMove g.pos mv) true).1 (some mv)).1 =
            (minimaxNoPrune O d (O.applyMove g.pos mv) true).1 :=
          le_antisymm (noPruneMinLoop_le_seed O (minimaxNoPrune O d) rest g.pos _ _) hvV'
        have hallrest : ∀ mv' ∈ rest,
            (minimaxNoPrune O d (O.applyMove g.pos mv) true).1 ≤
            (minimaxNoPrune O d (O.applyMove g.pos mv') true).1 := by
          intro mv' h'
          exact le_trans hvV'
            (noPruneMinLoop_le_elem O (minimaxNoPrune O d) rest g.pos _ _ mv' h')
        rw [if_neg (not_le_of_lt hva)]
        rw [noPruneMinLoop_const O (minimaxNoPrune O d) rest g.pos _ (some mv) hallrest]
        rw [abMinLoop_const O d hK rest g alpha _ (some mv) hva hallrest]
        exact ⟨rfl, rfl⟩

/-! ## Unfolding the search one ply -/

lemma minimax_zero_eq {Pos : Type} (O : Oracle Pos) (g : Game Pos)
    (alpha beta : Score) (isMax : Bool) :
    minimax O 0 g alpha beta isMax = (g, ⟨Score.fin (evaluateBoard O g.pos), none⟩) := rfl

lemma minimax_gameOver_eq {Pos : Type} (O : Oracle Pos) (d : Nat) (g : Game Pos)
    (alpha beta : Score) (isMax : Bool) (h : O.isGameOver g.pos = true) :
    minimax O (d + 1) g alpha beta isMax =
      (g, ⟨Score.fin (evaluateBoard O g.pos), none⟩) := by
  simp only [minimax, h, if_true]

lemma minimax_succ_max {Pos : Type} (O : Oracle Pos) (d : Nat) (g : Game Pos)
    (alpha beta : Score) (h : O.isGameOver g.pos = false) :
    minimax O (d + 1) g alpha beta true =
      ((maxLoop O (minimax O d) (O.moves g.pos) g alpha beta Score.negInf none).1,
       ⟨(maxLoop O (minimax O d) (O.moves g.pos) g alpha beta Score.negInf none).2.1,
        (maxLoop O (minimax O d) (O.moves g.pos) g alpha beta Score.negInf none).2.2.map
          Mv.san⟩) := by
  simp only [minimax, h, Bool.false_eq_true, if_false, if_true]

lemma minimax_succ_min {Pos : Type} (O : Oracle Pos) (d : Nat) (g : Game Pos)
    (alpha beta : Score) (h : O.isGameOver g.pos = false) :
    minimax O (d + 1) g alpha beta false =
      ((minLoop O (minimax O d) (O.moves g.pos) g alpha beta Score.posInf none).1,
       ⟨(minLoop O (minimax O d) (O.moves g.pos) g alpha beta Score.posInf none).2.1,
        (minLoop O (minimax O d) (O.moves g.pos) g alpha beta Score.posInf none).2.2.map
          Mv.san⟩) := by
  simp only [minimax, h, Bool.false_eq_true, if_false]

lemma noPrune_zero_eq {Pos : Type} (O : Oracle Pos) (p : Pos) (isMax : Bool) :
    minimaxNoPrune O 0 p isMax = (Score.fin (evaluateBoard O p), none) := rfl

lemma noPrune_gameOver_eq {Pos : Type} (O : Oracle Pos) (d : Nat) (p : Pos)
    (isMax : Bool) (h : O.isGameOver p = true) :
    minimaxNoPrune O (d + 1) p isMax = (Score.fin (evaluateBoard O p), none) := by
  simp only [minimaxNoPrune, h, if_true]

lemma noPrune_succ_max {Pos : Type} (O : Oracle Pos) (d : Nat) (p : Pos)
    (h : O.isGameOver p = false) :
    minimaxNoPrune O (d + 1) p true =
      noPruneMaxLoop O (minimaxNoPrune O d) (O.moves p) p Score.negInf none := by
  simp only [minimaxNoPrune, h, Bool.false_eq_true, if_false, if_true]

lemma noPrune_succ_min {Pos : Type} (O : Oracle Pos) (d : Nat) (p : Pos)
    (h : O.isGameOver p = false) :
    minimaxNoPrune O (d + 1) p false =
      noPruneMinLoop O (minimaxNoPrune O d) (O.moves p) p Score.posInf none := by
  simp only [minimaxNoPrune, h, Bool.false_eq_true, if_false]

/-! ## The Knuth–Moore induction over the depth -/

lemma KM_zero {Pos : Type} (O : Oracle Pos) : KMprop O 0 := by
  intro g alpha beta isMax _
  refine ⟨fun h => ⟨le_refl _, h⟩, fun _ _ => rfl, fun h => ⟨h, le_refl _⟩⟩

lemma KM_succ {Pos : Type} (O : Oracle Pos) (d : Nat) (hK : KMprop O d) :
    KMprop O (d + 1) := by
  intro g alpha beta isMax hab
  rcases hGO : O.isGameOver g.pos with _ | _
  · cases isMax
    · rw [minimax_succ_min O d g alpha beta hGO, noPrune_succ_min O d g.pos hGO]
      refine ⟨fun h => ?_, fun h1 h2 => ?_, fun h => ?_⟩
      · exact kmC_min O d hK (O.moves g.pos) g alpha beta
          Score.posInf Score.posInf none none hab (Score.le_posInf _) (le_refl _) h
      · exact (kmB_min O d hK (O.moves g.pos) g alpha beta
          Score.posInf Score.posInf none none hab (Score.le_posInf _) (le_refl _) h1 h2).1
      · exact kmA_min O d hK (O.moves g.pos) g alpha beta
          Score.posInf Score.posInf none none hab (Score.le_posInf _) (le_refl _)
          (fun mv hm => h.trans (noPruneMinLoop_le_elem O (minimaxNoPrune O d)
            (O.moves g.pos) g.pos Score.posInf none mv hm))
    · rw [minimax_succ_max O d g alpha beta hGO, noPrune_succ_max O d g.pos hGO]
      refine ⟨fun h => ?_, fun h1 h2 => ?_, fun h => ?_⟩
      · obtain ⟨h1, h2⟩ := kmA_max O d hK (O.moves g.pos) g alpha beta
          Score.negInf Score.negInf none none hab (Score.negInf_le _) (le_refl _)
          (fun mv hm => (noPruneMaxLoop_elem_le O (minimaxNoPrune O d)
            (O.moves g.pos) g.pos Score.negInf none mv hm).trans h)
        exact ⟨h2, h1⟩
      · exact (kmB_max O d hK (O.moves g.pos) g alpha beta
          Score.negInf Score.negInf none none hab (Score.negInf_le _) (le_refl _) h1 h2).1
      · exact kmC_max O d hK (O.moves g.pos) g alpha beta
          Score.negInf Score.negInf none none hab (Score.negInf_le _) (le_refl _) h
  · rw [minimax_gameOver_eq O d g alpha beta isMax hGO,
      noPrune_gameOver_eq O d g.pos isMax hGO]
    exact ⟨fun h => ⟨le_refl _, h⟩, fun _ _ => rfl, fun h => ⟨h, le_refl _⟩⟩

/-- Knuth–Moore soundness at every depth. -/
lemma KM_all {Pos : Type} (O : Oracle Pos) : ∀ d, KMprop O d := by
  intro d
  induction d with
  | zero => exact KM_zero O
  | succ d ih => exact KM_succ O d ih

/-! ## Finiteness of search values when legal moves exist -/

lemma noPruneMaxLoop_isFin {Pos : Type} (O : Oracle Pos)
    (f : Pos → Bool → Score × Option Mv) :
    ∀ (ms : List Mv) (p : Pos) (b : Score) (bm : Option Mv),
      (b.IsFin ∨ (b = Score.negInf ∧ ms ≠ [])) →
      (∀ mv ∈ ms, ((f (O.applyMove p mv) false).1).IsFin) →
      ((noPruneMaxLoop O f ms p b bm).1).IsFin := by
  intro ms
  induction ms with
  | nil =>
    intro p b bm hseed _
    rcases hseed with h | ⟨_, hne⟩
    · exact h
    · exact absurd rfl hne
  | cons mv rest ih =>
    intro p b bm hseed hall
    have hv : ((f (O.applyMove p mv) false).1).IsFin := hall mv (List.mem_cons_self _ _)
    rw [noPruneMaxLoop_cons_eq]
    rcases hseed with h | ⟨rfl, _⟩
    · exact ih p _ _ (Or.inl (Score.isFin_max h hv))
        (fun mv' h' => hall mv' (List.mem_cons_of_mem _ h'))
    · rw [max_eq_right (Score.negInf_le _)]
      exact ih p _ _ (Or.inl hv) (fun mv' h' => hall mv' (List.mem_cons_of_mem _ h'))

lemma noPruneMinLoop_isFin {Pos : Type} (O : Oracle Pos)
    (f : Pos → Bool → Score × Option Mv) :
    ∀ (ms : List Mv) (p : Pos) (b : Score) (bm : Option Mv),
      (b.IsFin ∨ (b = Score.posInf ∧ ms ≠ [])) →
      (∀ mv ∈ ms, ((f (O.applyMove p mv) true).1).IsFin) →
      ((noPruneMinLoop O f ms p b bm).1).IsFin := by
  intro ms
  induction ms with
  | nil =>
    intro p b bm hseed _
    rcases hseed with h | ⟨_, hne⟩
    · exact h
    · exact absurd rfl hne
  | cons mv rest ih =>
    intro p b bm hseed hall
    have hv : ((f (O.applyMove p mv) true).1).IsFin := hall mv (List.mem_cons_self _ _)
    rw [noPruneMinLoop_cons_eq]
    rcases hseed with h | ⟨rfl, _⟩
    · exact ih p _ _ (Or.inl (Score.isFin_min h hv))
        (fun mv' h' => hall mv' (List.mem_cons_of_mem _ h'))
    · rw [min_eq_right (Score.le_posInf _)]
      exact ih p _ _ (Or.inl hv) (fun mv' h' => hall mv' (List.mem_cons_of_mem _ h'))

/-- On an oracle where non-terminal positions always have a legal move
(true of any chess rules engine), the exhaustive minimax value is always a
finite score. -/
lemma noPrune_isFin {Pos : Type} (O : Oracle Pos)
    (hmv : ∀ p, O.isGameOver p = false → O.moves p ≠ []) :
    ∀ (d : Nat) (p : Pos) (isMax : Bool), ((minimaxNoPrune O d p isMax).1).IsFin := by
  intro d
  induction d with
  | zero => intro p isMax; exact ⟨evaluateBoard O p, rfl⟩
  | succ d ih =>
    intro p isMax
    rcases hGO : O.isGameOver p with _ | _
    · cases isMax
      · rw [noPrune_succ_min O d p hGO]
        exact noPruneMinLoop_isFin O (minimaxNoPrune O d) (O.moves p) p _ none
          (Or.inr ⟨rfl, hmv p hGO⟩) (fun mv _ => ih (O.applyMove p mv) true)
      · rw [noPrune_succ_max O d p hGO]
        exact noPruneMaxLoop_isFin O (minimaxNoPrune O d) (O.moves p) p _ none
          (Or.inr ⟨rfl, hmv p hGO⟩) (fun mv _ => ih (O.applyMove p mv) false)
    · rw [noPrune_gameOver_eq O d p isMax hGO]
      exact ⟨evaluateBoard O p, rfl⟩

lemma maxLoop_score_isFin {Pos : Type} (O : Oracle Pos) (d : Nat)
    (hfin : ∀ (g : Game Pos) (alpha beta : Score) (m : Bool),
      ((minimax O d g alpha beta m).2.score).IsFin) :
    ∀ (ms : List Mv) (g : Game Pos) (alpha beta b : Score) (bm : Option Mv),
      (b.IsFin ∨ (b = Score.negInf ∧ ms ≠ [])) →
      ((maxLoop O (minimax O d) ms g alpha beta b bm).2.1).IsFin := by
  intro ms
  induction ms with
  | nil =>
    intro g alpha beta b bm hseed
    rcases hseed with h | ⟨_, hne⟩
    · exact h
    · exact absurd rfl hne
  | cons mv rest ih =>
    intro g alpha beta b bm hseed
    have hr := hfin (Game.move O g mv) alpha beta false
    rw [maxLoop_cons_eq]
    have hfin' : (max b ((minimax O d (Game.move O g mv) alpha beta false).2.score)).IsFin := by
      rcases hseed with h | ⟨rfl, _⟩
      · exact Score.isFin_max h hr
      · rw [max_eq_right (Score.negInf_le _)]; exact hr
    split
    · exact hfin'
    · exact ih g _ beta _ _ (Or.inl hfin')

lemma minLoop_score_isFin {Pos : Type} (O : Oracle Pos) (d : Nat)
    (hfin : ∀ (g : Game Pos) (alpha beta : Score) (m : Bool),
      ((minimax O d g alpha beta m).2.score).IsFin) :
    ∀ (ms : List Mv) (g : Game Pos) (alpha beta b : Score) (bm : Option Mv),
      (b.IsFin ∨ (b = Score.posInf ∧ ms ≠ [])) →
      ((minLoop O (minimax O d) ms g alpha beta b bm).2.1).IsFin := by
  intro ms
  induction ms with
  | nil =>
    intro g alpha beta b bm hseed
    rcases hseed with h | ⟨_, hne⟩
    · exact h
    · exact absurd rfl hne
  | cons mv rest ih =>
    intro g alpha beta b bm hseed
    have hr := hfin (Game.move O g mv) alpha beta true
    rw [minLoop_cons_eq]
    have hfin' : (min b ((minimax O d (Game.move O g mv) alpha beta true).2.score)).IsFin := by
      rcases hseed with h | ⟨rfl, _⟩
      · exact Score.isFin_min h hr
      · rw [min_eq_right (Score.le_posInf _)]; exact hr
    split
    · exact hfin'
    · exact ih g alpha _ _ _ (Or.inl hfin')

/-- On an oracle where non-terminal positions always have a legal move,
the pruned search score is always a finite score, for every window. -/
lemma minimax_score_isFin {Pos : Type} (O : Oracle Pos)
    (hmv : ∀ p, O.isGameOver p = false → O.moves p ≠ []) :
    ∀ (d : Nat) (g : Game Pos) (alpha beta : Score) (isMax : Bool),
      ((minimax O d g alpha beta isMax).2.score).IsFin := by
  intro d
  induction d with
  | zero => intro g alpha beta isMax; exact ⟨evaluateBoard O g.pos, rfl⟩
  | succ d ih =>
    intro g alpha beta isMax
    rcases hGO : O.isGameOver g.pos with _ | _
    · cases isMax
      · rw [minimax_succ_min O d g alpha beta hGO]
        exact minLoop_score_isFin O d ih (O.moves g.pos) g alpha beta _ none
          (Or.inr ⟨rfl, hmv g.pos hGO⟩)
      · rw [minimax_succ_max O d g alpha beta hGO]
        exact maxLoop_score_isFin O d ih (O.moves g.pos) g alpha beta _ none
          (Or.inr ⟨rfl, hmv g.pos hGO⟩)
    · rw [minimax_gameOver_eq O d g alpha beta isMax hGO]
      exact ⟨evaluateBoard O g.pos, rfl⟩

/-! ## Root equivalence of the pruned and exhaustive searches -/

/-- With the full root window `(-Infinity, +Infinity)`, alpha-beta returns
exactly the exhaustive minimax score and exactly the exhaustive minimax
move, at every depth and for both perspectives, provided non-terminal
positions always offer a legal move. -/
lemma pruning_root {Pos : Type} (O : Oracle Pos)
    (hmv : ∀ p, O.isGameOver p = false → O.moves p ≠ []) :
    ∀ (d : Nat) (g : Game Pos) (isMax : Bool),
      (minimax O d g Score.negInf Score.posInf isMax).2.score =
        (minimaxNoPrune O d g.pos isMax).1 ∧
      (minimax O d g Score.negInf Score.posInf isMax).2.move =
        ((minimaxNoPrune O d g.pos isMax).2).map Mv.san := by
  intro d g isMax
  rcases d with _ | d
  · exact ⟨rfl, rfl⟩
  · rcases hGO : O.isGameOver g.pos with _ | _
    · cases isMax
      · have hFin := noPrune_isFin O hmv (d + 1) g.pos false
        rw [noPrune_succ_min O d g.pos hGO] at hFin
        rw [minimax_succ_min O d g Score.negInf Score.posInf hGO,
          noPrune_succ_min O d g.pos hGO]
        obtain ⟨hs, hb⟩ := kmB_min O d (KM_all O d) (O.moves g.pos) g
          Score.negInf Score.posInf Score.posInf Score.posInf none none
          Score.negInf_lt_posInf (le_refl _) (le_refl _)
          hFin.negInf_lt hFin.lt_posInf
        exact ⟨hs, by rw [hb]⟩
      · have hFin := noPrune_isFin O hmv (d + 1) g.pos true
        rw [noPrune_succ_max O d g.pos hGO] at hFin
        rw [minimax_succ_max O d g Score.negInf Score.posInf hGO,
          noPrune_succ_max O d g.pos hGO]
        obtain ⟨hs, hb⟩ := kmB_max O d (KM_all O d) (O.moves g.pos) g
          Score.negInf Score.posInf Score.negInf Score.negInf none none
          Score.negInf_lt_posInf (le_refl _) (le_refl _)
          hFin.negInf_lt hFin.lt_posInf
        exact ⟨hs, by rw [hb]⟩
    · rw [minimax_gameOver_eq O d g Score.negInf Score.posInf isMax hGO,
        noPrune_gameOver_eq O d g.pos isMax hGO]
      exact ⟨rfl, rfl⟩

/-! ## The returned move is one of the legal moves -/

lemma maxLoop_bm_mem {Pos : Type} (O : Oracle Pos) (d : Nat) :
    ∀ (ms : List Mv) (g : Game Pos) (alpha beta b : Score) (bm : Option Mv),
      (maxLoop O (minimax O d) ms g alpha beta b bm).2.2 = bm ∨
      ∃ mv ∈ ms, (maxLoop O (minimax O d) ms g alpha beta b bm).2.2 = some mv := by
  intro ms
  induction ms with
  | nil => intro g alpha beta b bm; exact Or.inl rfl
  | cons mv rest ih =>
    intro g alpha beta b bm
    rw [maxLoop_cons_eq]
    by_cases hlt : b < (minimax O d (Game.move O g mv) alpha beta false).2.score
    · rw [if_pos hlt]
      split
      · exact Or.inr ⟨mv, List.mem_cons_self _ _, rfl⟩
      · rcases ih g _ beta _ (some mv) with h | ⟨mv', hm', h⟩
        · exact Or.inr ⟨mv, List.mem_cons_self _ _, h⟩
        · exact Or.inr ⟨mv', List.mem_cons_of_mem _ hm', h⟩
    · rw [if_neg hlt]
      split
      · exact Or.inl rfl
      · rcases ih g _ beta _ bm with h | ⟨mv', hm', h⟩
        · exact Or.inl h
        · exact Or.inr ⟨mv', List.mem_cons_of_mem _ hm', h⟩

lemma minLoop_bm_mem {Pos : Type} (O : Oracle Pos) (d : Nat) :
    ∀ (ms : List Mv) (g : Game Pos) (alpha beta b : Score) (bm : Option Mv),
      (minLoop O (minimax O d) ms g alpha beta b bm).2.2 = bm ∨
      ∃ mv ∈ ms, (minLoop O (minimax O d) ms g alpha beta b bm).2.2 = some mv := by
  intro ms
  induction ms with
  | nil => intro g alpha beta b bm; exact Or.inl rfl
  | cons mv rest ih =>
    intro g alpha beta b bm
    rw [minLoop_cons_eq]
    by_cases hlt : (minimax O d (Game.move O g mv) alpha beta true).2.score < b
    · rw [if_pos hlt]
      split
      · exact Or.inr ⟨mv, List.mem_cons_self _ _, rfl⟩
      · rcases ih g alpha _ _ (some mv) with h | ⟨mv', hm', h⟩
        · exact Or.inr ⟨mv, List.mem_cons_self _ _, h⟩
        · exact Or.inr ⟨mv', List.mem_cons_of_mem _ hm', h⟩
    · rw [if_neg hlt]
      split
      · exact Or.inl rfl
      · rcases ih g alpha _ _ bm with h | ⟨mv', hm', h⟩
        · exact Or.inl h
        · exact Or.inr ⟨mv', List.mem_cons_of_mem _ hm', h⟩

/-- At depth at least 1 on a non-terminal position, the pruned search
picks one of the legal moves: its best move is the SAN of a member of
`moves`, provided non-terminal positions always offer a legal move. -/
lemma minimax_move_mem {Pos : Type} (O : Oracle Pos)
    (hmv : ∀ p, O.isGameOver p = false → O.moves p ≠ []) :
    ∀ (d : Nat) (g : Game Pos) (alpha beta : Score) (isMax : Bool),
      1 ≤ d → O.isGameOver g.pos = false →
      ∃ mv ∈ O.moves g.pos,
        (minimax O d g alpha beta isMax).2.move = some mv.san := by
  intro d g alpha beta isMax hd hGO
  rcases d with _ | d
  · exact absurd hd (by simp)
  · obtain ⟨mv0, rest, hms⟩ := List.exists_cons_of_ne_nil (hmv g.pos hGO)
    cases isMax
    · rw [minimax_succ_min O d g alpha beta hGO]
      have hbm : (minLoop O (minimax O d) (O.moves g.pos) g alpha beta
            Score.posInf none).2.2 = none ∨
          ∃ mv ∈ O.moves g.pos, (minLoop O (minimax O d) (O.moves g.pos) g alpha beta
            Score.posInf none).2.2 = some mv :=
        minLoop_bm_mem O d (O.moves g.pos) g alpha beta Score.posInf none
      rcases hbm with hb | ⟨mv', hm', hb⟩
      · exfalso
        have hr := (minimax_score_isFin O hmv d (Game.move O g mv0) alpha beta true).lt_posInf
        rw [hms, minLoop_cons_eq, if_pos hr] at hb
        rw [min_eq_right hr.le] at hb
        split at hb
        · exact Option.noConfusion hb
        · rcases minLoop_bm_mem O d rest g alpha _ _ (some mv0) with h | ⟨mv', _, h⟩ <;>
            rw [hb] at h <;> exact Option.noConfusion h
      · exact ⟨mv', hm', by rw [hb]; rfl⟩
    · rw [minimax_succ_max O d g alpha beta hGO]
      have hbm : (maxLoop O (minimax O d) (O.moves g.pos) g alpha beta
            Score.negInf none).2.2 = none ∨
          ∃ mv ∈ O.moves g.pos, (maxLoop O (minimax O d) (O.moves g.pos) g alpha beta
            Score.negInf none).2.2 = some mv :=
        maxLoop_bm_mem O d (O.moves g.pos) g alpha beta Score.negInf none
      rcases hbm with hb | ⟨mv', hm', hb⟩
      · exfalso
        have hr := (minimax_score_isFin O hmv d (Game.move O g mv0) alpha beta false).negInf_lt
        rw [hms, maxLoop_cons_eq, if_pos hr] at hb
        rw [max_eq_right hr.le] at hb
        split at hb
        · exact Option.noConfusion hb
        · rcases maxLoop_bm_mem O d rest g _ beta _ (some mv0) with h | ⟨mv', _, h⟩ <;>
            rw [hb] at h <;> exact Option.noConfusion h
      · exact ⟨mv', hm', by rw [hb]; rfl⟩

/-! ## A concrete oracle around the standard starting position

The standard starting position, its 20 legal first moves for White with
their SAN notations, and the 20 resulting positions (each of which gives
Black the same 20 reply notations, as no first move can obstruct or check
Black).  Positions two plies deep are cut off by the fixture `deep`, which
no depth-1 search ever reaches. -/

inductive StdPos where
  | start
  | afterw (san : String)
  | deep
deriving DecidableEq, Repr

def setCell (b : Board) (r c : Nat) (v : Option SquareInfo) : Board :=
  b.set r ((b.getD r []).set c v)

def movePiece (b : Board) (r1 c1 r2 c2 : Nat) : Board :=
  setCell (setCell b r1 c1 none) r2 c2 ((b.getD r1 []).getD c1 none)

def startBoard : Board :=
  [[bsq .r, bsq .n, bsq .b, bsq .q, bsq .k, bsq .b, bsq .n, bsq .r],
   List.replicate 8 (bsq .p),
   row0, row0, row0, row0,
   List.replicate 8 (wsq .p),
   [wsq .r, wsq .n, wsq .b, wsq .q, wsq .k, wsq .b, wsq .n, wsq .r]]

/-- The 20 legal first moves of the standard starting position. -/
def stdFirstMoves : List Mv := mvs
  ["a3", "a4", "b3", "b4", "c3", "c4", "d3", "d4", "e3", "e4",
   "f3", "f4", "g3", "g4", "h3", "h4", "Na3", "Nc3", "Nf3", "Nh3"]

/-- The 20 legal replies of Black, identical in notation after any of
White's 20 first moves. -/
def stdReplies : List Mv := mvs
  ["a6", "a5", "b6", "b5", "c6", "c5", "d6", "d5", "e6", "e5",
   "f6", "f5", "g6", "g5", "h6", "h5", "Na6", "Nc6", "Nf6", "Nh6"]

/-- The board after White's first move with the given SAN. -/
def stdAfterBoard : String → Board
  | "a3" => movePiece startBoard 6 0 5 0
  | "a4" => movePiece startBoard 6 0 4 0
  | "b3" => movePiece startBoard 6 1 5 1
  | "b4" => movePiece startBoard 6 1 4 1
  | "c3" => movePiece startBoard 6 2 5 2
  | "c4" => movePiece startBoard 6 2 4 2
  | "d3" => movePiece startBoard 6 3 5 3
  | "d4" => movePiece startBoard 6 3 4 3
  | "e3" => movePiece startBoard 6 4 5 4
  | "e4" => movePiece startBoard 6 4 4 4
  | "f3" => movePiece startBoard 6 5 5 5
  | "f4" => movePiece startBoard 6 5 4 5
  | "g3" => movePiece startBoard 6 6 5 6
  | "g4" => movePiece startBoard 6 6 4 6
  | "h3" => movePiece startBoard 6 7 5 7
  | "h4" => movePiece startBoard 6 7 4 7
  | "Na3" => movePiece startBoard 7 1 5 0
  | "Nc3" => movePiece startBoard 7 1 5 2
  | "Nf3" => movePiece startBoard 7 6 5 5
  | "Nh3" => movePiece startBoard 7 6 5 7
  | _ => startBoard

/-- The concrete rules oracle over the standard starting position. -/
def stdO : Oracle StdPos where
  board
    | .start => startBoard
    | .afterw s => stdAfterBoard s
    | .deep => startBoard
  turn
    | .start => Color.w
    | .afterw _ => Color.b
    | .deep => Color.w
  moves
    | .start => stdFirstMoves
    | .afterw _ => stdReplies
    | .deep => []
  applyMove
    | .start, m => .afterw m.san
    | _, _ => .deep
  isCheckmate := fun _ => false
  isStalemate := fun _ => false
  isDraw := fun p => decide (p = .deep)
  isThreefoldRepetition := fun _ => false
  isInsufficientMaterial := fun _ => false
  isGameOver := fun p => decide (p = .deep)
  fen := fun p =>
    match p with
    | .start => "rnbqkbnr/pppppppp/8/8/8/8/PPPPPPPP/RNBQKBNR w KQkq - 0 1"
    | _ => ""
  fromFen := fun _ => .start

lemma stdO_hmv : ∀ p, stdO.isGameOver p = false → stdO.moves p ≠ [] := by
  intro p hp
  cases p with
  | start => show stdFirstMoves ≠ []; decide
  | afterw s => show stdReplies ≠ []; decide
  | deep => exact absurd hp (by decide)

lemma scen_hmv : ∀ p, scen.isGameOver p = false → scen.moves p ≠ [] := by
  intro p hp
  cases p <;> first | exact absurd hp (by decide) | decide

/-! ## The claims -/

/-- C1: for every position and every depth ≥ 0, after a call to
`minimax(game, depth, alpha, beta, isMaximizingPlayer)` returns, the
position it was given is in exactly the state it had before the call
(same board, same side to move, and same rights — the FEN serializes the
castling and en-passant rights), including when the call exits a move
loop early via an alpha-beta pruning break. -/
theorem minimax_restores_position {Pos : Type} (O : Oracle Pos) (d : Nat)
    (g : Game Pos) (alpha beta : Score) (isMax : Bool) :
    (minimax O d g alpha beta isMax).1 = g ∧
    O.board (minimax O d g alpha beta isMax).1.pos = O.board g.pos ∧
    O.turn (minimax O d g alpha beta isMax).1.pos = O.turn g.pos ∧
    O.fen (minimax O d g alpha beta isMax).1.pos = O.fen g.pos := by
  refine ⟨minimax_fst O d g alpha beta isMax, ?_, ?_, ?_⟩ <;>
    rw [minimax_fst O d g alpha beta isMax]

/-- C2 (documents the code bug): the rules library reports piece types as
lowercase symbols, so the material term of `evaluateBoard` reads the
negative `PIECE_VALUES` entry for every piece and multiplies it by the
color sign: a White pawn contributes −100 (the claim says +100) and a
Black pawn +100 (the claim says −100).  On the real position
`4k3/8/8/8/8/8/P7/4K3 w` (kings plus a lone white pawn on a2) the
evaluation is −20 where the claimed signs would make the material term
+100. -/
theorem material_sign_flipped :
    materialValue ⟨PieceType.p, Color.w⟩ = -100 ∧
    materialValue ⟨PieceType.p, Color.b⟩ = 100 ∧
    evaluateBoard scen ScenPos.pawnP = -20 := by
  refine ⟨by decide, by decide, by decide⟩

/-- C3 (documents the code bug): the rules library reports piece types as
lowercase symbols, so `piece === piece.toUpperCase()` is false for every
piece that `evaluateBoard` passes to `getPositionBonus`: the White branch
reading `bonus[7 - row][col]` is unreachable, and a White knight on b1
(row 7, col 1) receives `-N_TABLE[7][1] = 40` where the claim's White
reading would give `N_TABLE[0][1] = -40`. -/
theorem white_position_bonus_misread :
    (∀ t : PieceType, t.sym ≠ t.sym.toUpper) ∧
    getPositionBonus PieceType.n.sym 7 1 = 40 ∧
    tableGet N_TABLE 0 1 = -40 := by
  refine ⟨?_, by decide, by decide⟩
  intro t
  cases t <;> decide

/-- C4 (documents the code bug): `findBestMove` sets
`isMaximizingPlayer = (turn === computerColor)`, so when the side to move
equals the computer's color the root is ALWAYS maximizing, even for a
Black computer.  On `4k3/8/8/8/8/8/8/3QK3 b` with `computerColor = 'b'`
and depth 1 the code returns "Ke7", the move maximizing the evaluation,
while a minimizing root (what the claim prescribes for Black) returns
"Kf7". -/
theorem findBestMove_black_root_maximizes :
    scen.turn ScenPos.c4root = Color.b ∧
    (findBestMove scen ⟨ScenPos.c4root, []⟩ 1 Color.b).2 = some "Ke7" ∧
    (minimax scen 1 ⟨ScenPos.c4root, []⟩ Score.negInf Score.posInf false).2.move =
      some "Kf7" := by
  refine ⟨by decide, by decide, by decide⟩

/-- C5: for every position and fixed depth, the score and the move
returned by `minimax` with alpha-beta pruning from the full initial window
(alpha = −Infinity, beta = +Infinity) equal the score and move returned by
exhaustive minimax without pruning over the same move enumeration order
(on any oracle whose non-terminal positions have at least one legal move,
as every chess rules engine guarantees). -/
theorem alphabeta_equals_exhaustive_minimax {Pos : Type} (O : Oracle Pos)
    (hmv : ∀ p, O.isGameOver p = false → O.moves p ≠ [])
    (d : Nat) (g : Game Pos) (isMax : Bool) :
    (minimax O d g Score.negInf Score.posInf isMax).2.score =
      (minimaxNoPrune O d g.pos isMax).1 ∧
    (minimax O d g Score.negInf Score.posInf isMax).2.move =
      ((minimaxNoPrune O d g.pos isMax).2).map Mv.san :=
  pruning_root O hmv d g isMax

/-- C5, witnessed at depth 2 on a concrete position of the concrete
oracle. -/
theorem alphabeta_equals_exhaustive_minimax_witness :
    (minimax scen 2 ⟨ScenPos.c4root, []⟩ Score.negInf Score.posInf true).2.score =
      (minimaxNoPrune scen 2 ScenPos.c4root true).1 ∧
    (minimax scen 2 ⟨ScenPos.c4root, []⟩ Score.negInf Score.posInf true).2.move =
      ((minimaxNoPrune scen 2 ScenPos.c4root true).2).map Mv.san :=
  alphabeta_equals_exhaustive_minimax scen scen_hmv 2 ⟨ScenPos.c4root, []⟩ true

/-- C6: `evaluateBoard` handles terminal positions before any material
scan: a checkmate position evaluates to −100000 when White is to move and
+100000 when Black is to move, and a non-checkmate position flagged as a
draw, stalemate, threefold repetition or insufficient material evaluates
to exactly 0 (checkmate and the draw-like predicates are mutually
exclusive on real chess positions, so the guard covers every terminal). -/
theorem evaluateBoard_terminal {Pos : Type} (O : Oracle Pos) (p : Pos) :
    (O.isCheckmate p = true →
      evaluateBoard O p = if O.turn p = Color.w then -100000 else 100000) ∧
    (O.isCheckmate p = false →
      (O.isDraw p || O.isStalemate p || O.isThreefoldRepetition p
        || O.isInsufficientMaterial p) = true →
      evaluateBoard O p = 0) := by
  constructor
  · intro h
    simp only [evaluateBoard, h, if_true]
  · intro h1 h2
    simp only [evaluateBoard, h1, h2, Bool.false_eq_true, if_false, if_true]

/-- C6, witnessed on a real checkmate with White to move, a real
checkmate with Black to move, and a real stalemate. -/
theorem evaluateBoard_terminal_witness :
    evaluateBoard scen ScenPos.mateW = -100000 ∧
    evaluateBoard scen ScenPos.mateB = 100000 ∧
    evaluateBoard scen ScenPos.stale = 0 := by
  refine ⟨?_, ?_, ?_⟩
  · have h := (evaluateBoard_terminal scen ScenPos.mateW).1 (by decide)
    rw [h]; decide
  · have h := (evaluateBoard_terminal scen ScenPos.mateB).1 (by decide)
    rw [h]; decide
  · exact (evaluateBoard_terminal scen ScenPos.stale).2 (by decide) (by decide)

/-- C7 (documents the code bug): evaluating the color-flipped,
rank-mirrored counterpart does NOT yield the negated score.  On
`4k3/8/8/8/8/8/8/Q3K3 w` (evaluation −720) the mirrored position
`q3k3/8/8/8/8/8/8/4K3 b` evaluates to 860, not +720: with the lowercase
piece symbols of the rules library every piece of either color receives
the SAME positional term `-table[row][col]`, which is not antisymmetric
under the mirror. -/
theorem mirror_eval_not_negated :
    evaluateBoard scen ScenPos.qk = -720 ∧
    evaluateBoard scen ScenPos.qkm = 860 ∧
    evaluateBoard scen ScenPos.qkm ≠ -(evaluateBoard scen ScenPos.qk) := by
  refine ⟨by decide, by decide, by decide⟩

/-- C8: at every depth ≥ 1, on every non-terminal position (of an oracle
whose non-terminal positions have at least one legal move), `minimax`
returns a non-null move whose SAN is that of one of the position's legal
moves. -/
theorem minimax_returns_legal_move {Pos : Type} (O : Oracle Pos)
    (hmv : ∀ p, O.isGameOver p = false → O.moves p ≠ [])
    (d : Nat) (g : Game Pos) (alpha beta : Score) (isMax : Bool)
    (hd : 1 ≤ d) (hterm : O.isGameOver g.pos = false) :
    ∃ mv ∈ O.moves g.pos,
      (minimax O d g alpha beta isMax).2.move = some mv.san :=
  minimax_move_mem O hmv d g alpha beta isMax hd hterm

/-- C8, witnessed at the standard starting position: at depth 1,
maximizing for White, the returned move is among the 20 legal first
moves. -/
theorem minimax_returns_legal_move_witness :
    (stdO.moves StdPos.start).length = 20 ∧
    ∃ mv ∈ stdO.moves StdPos.start,
      (minimax stdO 1 ⟨StdPos.start, []⟩ Score.negInf Score.posInf true).2.move =
        some mv.san := by
  refine ⟨by decide, ?_⟩
  exact minimax_returns_legal_move stdO stdO_hmv 1 ⟨StdPos.start, []⟩
    Score.negInf Score.posInf true (le_refl 1) (by decide)

/-- C9: `minimax` at depth 0 returns exactly the static evaluation of the
position and no move, for every window and both perspectives, and
`findBestMove` at depth 0 returns null, recommending no move. -/
theorem depth_zero_degenerates {Pos : Type} (O : Oracle Pos) (g : Game Pos)
    (alpha beta : Score) (isMax : Bool) (c : Color) :
    (minimax O 0 g alpha beta isMax).2 =
      ⟨Score.fin (evaluateBoard O g.pos), none⟩ ∧
    (findBestMove O g 0 c).2 = none :=
  ⟨rfl, rfl⟩

/-- C10: `findBestMove` never mutates the game object it is given: it
builds a fresh game from the caller's FEN and searches only that private
copy, so the caller's game is returned unchanged and the result depends
on the caller's game only through its FEN. -/
theorem findBestMove_preserves_caller_game {Pos : Type} (O : Oracle Pos)
    (g : Game Pos) (d : Nat) (c : Color) :
    (findBestMove O g d c).1 = g ∧
    (∀ g' : Game Pos, O.fen g'.pos = O.fen g.pos →
      (findBestMove O g' d c).2 = (findBestMove O g d c).2) := by
  refine ⟨rfl, ?_⟩
  intro g' h
  simp only [findBestMove, h]

/-- C10, witnessed on the concrete oracle. -/
theorem findBestMove_preserves_caller_game_witness :
    (findBestMove scen ⟨ScenPos.c4root, []⟩ 1 Color.b).1 = ⟨ScenPos.c4root, []⟩ ∧
    (findBestMove scen ⟨ScenPos.c4root, [ScenPos.kk]⟩ 1 Color.b).2 =
      (findBestMove scen ⟨ScenPos.c4root, []⟩ 1 Color.b).2 := by
  obtain ⟨h1, h2⟩ := findBestMove_preserves_caller_game scen ⟨ScenPos.c4root, []⟩ 1 Color.b
  exact ⟨h1, h2 ⟨ScenPos.c4root, [ScenPos.kk]⟩ rfl⟩

end MinimaxAgent
